import Mathlib

/-!
Verification of the multi-index key-value engine of a URL-shortener service.

The source consists of two Python files:
* `bst.py` — an imperative red-black tree (`RedBlackTree`) with parent
  pointers and a shared black `NIL` sentinel;
* `main.py` — a cuckoo hash table over two fixed-size tables, an access
  counter with a `heapq`-based priority list, and the HTTP handlers
  `shorten_url` (put), `redirect_to_url` (get) and `get_popular_urls` (top-K).

This file embeds those data structures and operations shallowly:
mutable state becomes explicit state passing, Python dicts become
functions into `Option`, the fixed-size tables become lists of optional
slots, and the parent-pointer walk of the red-black rebalancing loop
becomes a zipper (a path of steps recording, for every ancestor, which
side was descended, its color, key, value and the other child).
The two cryptographic slot hashes (`md5`, `sha1`, both taken mod the
table size) are opaque external library calls in the source, so they are
modelled as parameters.
-/

set_option autoImplicit false
set_option maxRecDepth 100000

namespace URLShortener

/-! ### Red-black tree (`bst.py`)

`color = true` means red and `color = false` means black, exactly as in
the Python source (`self.color = color  # True for red, False for black`).
The shared `NIL` sentinel (black, no key/value) is the `nil` constructor. -/

inductive RBTree where
  | nil
  | node (color : Bool) (l : RBTree) (key value : String) (r : RBTree)
deriving DecidableEq, Repr

/-- `search` / `_search_helper`: descend comparing the key, `NIL` is a miss. -/
def RBTree.search : RBTree → String → Option String
  | .nil, _ => none
  | .node _ l k v r, key =>
    if key = k then some v
    else if key < k then l.search key
    else r.search key

/-- `inorder_traversal`: ascending traversal collecting `(key, value)` pairs. -/
def RBTree.inorder : RBTree → List (String × String)
  | .nil => []
  | .node _ l k v r => l.inorder ++ (k, v) :: r.inorder

/-- Which side of its parent the focused node hangs on. -/
inductive Dir where
  | left
  | right
deriving DecidableEq, Repr

/-- One ancestor on the path from the focused node up to the root: the side
the focus is on, and the ancestor's color, key, value and other child. -/
structure PathStep where
  dir : Dir
  color : Bool
  key : String
  value : String
  sibling : RBTree
deriving DecidableEq, Repr

/-- Rebuild one ancestor node around a subtree. -/
def plug (st : PathStep) (x : RBTree) : RBTree :=
  match st.dir with
  | .left => .node st.color x st.key st.value st.sibling
  | .right => .node st.color st.sibling st.key st.value x

/-- Rebuild the whole tree from a focused subtree and its ancestor path
(the head of the path is the immediate parent). -/
def zipPath : List PathStep → RBTree → RBTree
  | [], x => x
  | st :: p, x => zipPath p (plug st x)

/-- `self.root.color = False` / `new_node.color = False`: force a root black. -/
def blackenRoot : RBTree → RBTree
  | .nil => .nil
  | .node _ l k v r => .node false l k v r

/-- Color test used by `_fix_insert` (`u.color == True`); `NIL` is black. -/
def isRed : RBTree → Bool
  | .node true _ _ _ _ => true
  | _ => false

/-- The uncle-red recoloring of `_fix_insert`: blacken the uncle and the
parent, redden the grandparent, and move the focus to the grandparent.
`p` is the parent step, `g` the grandparent step. -/
def uncleRedStep (kt : RBTree) (p g : PathStep) : RBTree :=
  let pSub : RBTree :=
    match p.dir with
    | .left => .node false kt p.key p.value p.sibling
    | .right => .node false p.sibling p.key p.value kt
  match g.dir with
  | .right => .node true (blackenRoot g.sibling) g.key g.value pSub
  | .left => .node true pSub g.key g.value (blackenRoot g.sibling)

/-- The uncle-black rotation cases of `_fix_insert` (triangle: double
rotation; line: single rotation), returning the rebuilt local subtree that
replaces the grandparent.  The triangle case reads the focused node's
children, which in the source would dereference the node; `none` is the
(unreachable) case of a `NIL` focus. -/
def rotateStep (kt : RBTree) (p g : PathStep) : Option RBTree :=
  match g.dir with
  | .right =>
    -- k.parent == k.parent.parent.right; uncle = grandparent's left child
    match p.dir with
    | .left =>
      -- triangle: k == k.parent.left; right-rotate at parent, then
      -- recolor and left-rotate at grandparent
      match kt with
      | .nil => none
      | .node _ kl kk kv kr =>
        some (.node false (.node true g.sibling g.key g.value kl) kk kv
                     (.node p.color kr p.key p.value p.sibling))
    | .right =>
      -- line: recolor parent/grandparent and left-rotate at grandparent
      some (.node false (.node true g.sibling g.key g.value p.sibling)
                   p.key p.value kt)
  | .left =>
    -- mirror case: uncle = grandparent's right child
    match p.dir with
    | .right =>
      match kt with
      | .nil => none
      | .node _ kl kk kv kr =>
        some (.node false (.node p.color p.sibling p.key p.value kl) kk kv
                     (.node true kr g.key g.value g.sibling))
    | .left =>
      some (.node false kt p.key p.value
             (.node true p.sibling g.key g.value g.sibling))

/-- `_fix_insert` from `bst.py`, as a recursion over the ancestor path.
The focused subtree `kt` is the node `k` of the source; the loop runs
while `k` is not the root (path nonempty) and `k.parent.color == True`.
In the uncle-red case the source recolors and moves `k` to its grandparent
(here: recurse two steps up the path).  In the uncle-black cases it
performs the triangle/line rotations, after which `k.parent` is black, so
the loop exits: here the rotated subtree is zipped through the remaining
path.  The final `self.root.color = False` is `blackenRoot`.
When `k.parent` is red but has no parent, the source dereferences
`None` (`k.parent.parent.right`) and crashes; that case is `none`. -/
def fixInsert : RBTree → List PathStep → Option RBTree
  | kt, [] => some (blackenRoot kt)
  | kt, [p] =>
    if p.color = false then some (blackenRoot (zipPath [p] kt))
    else none
  | kt, p :: g :: rest' =>
    if p.color = false then some (blackenRoot (zipPath (p :: g :: rest') kt))
    else if isRed g.sibling then fixInsert (uncleRedStep kt p g) rest'
    else
      match rotateStep kt p g with
      | none => none
      | some s => some (blackenRoot (zipPath rest' s))

/-- The descent loop of `insert`: walk down comparing keys, accumulating the
ancestor path.  An existing key just overwrites the value in place and
returns.  At `NIL` the new red node is linked in; then, as in the source,
an empty path means the new node is the root (colored black), a singleton
path means the grandparent is `None` (return without fixing), and otherwise
`_fix_insert` runs. -/
def insertGo (k v : String) : RBTree → List PathStep → Option RBTree
  | .nil, path =>
    match path with
    | [] => some (.node false .nil k v .nil)
    | [st] => some (zipPath [st] (.node true .nil k v .nil))
    | _ => fixInsert (.node true .nil k v .nil) path
  | .node c l key' val' r, path =>
    if k < key' then insertGo k v l (⟨.left, c, key', val', r⟩ :: path)
    else if key' < k then insertGo k v r (⟨.right, c, key', val', l⟩ :: path)
    else some (zipPath path (.node c l key' v r))

/-- `RedBlackTree.insert`.  `none` models the (unreachable) crash of
`_fix_insert` on a red root. -/
def RBTree.insert (t : RBTree) (k v : String) : Option RBTree :=
  insertGo k v t []

/-! ### Cuckoo hash table (`main.py`)

The two tables are lists of `CUCKOO_SIZE` optional `(key, value)` slots.
`cuckoo_hash1`/`cuckoo_hash2` reduce `md5`/`sha1` digests mod
`CUCKOO_SIZE`; the digests are external library calls, modelled by the
parameter structure `Hashes`. -/

def CUCKOO_SIZE : Nat := 1024

abbrev Slot := Option (String × String)

/-- The integer values of the `md5` and `sha1` digests of a key, which the
source obtains from Python's `hashlib`; opaque external functions here. -/
structure Hashes where
  md5Num : String → Nat
  sha1Num : String → Nat

/-- `cuckoo_hash1`: first hash, `md5` digest mod `CUCKOO_SIZE`. -/
def cuckooHash1 (H : Hashes) (key : String) : Nat := H.md5Num key % CUCKOO_SIZE

/-- `cuckoo_hash2`: second hash, `sha1` digest mod `CUCKOO_SIZE`. -/
def cuckooHash2 (H : Hashes) (key : String) : Nat := H.sha1Num key % CUCKOO_SIZE

/-- The `for _ in range(max_iterations)` loop of `cuckoo_insert`.  The loop
variables `key, value` (reassigned on each eviction) are threaded through and
returned, so the pair held when the budget runs out — the silently dropped
pair — is observable.  Returns `(success, key, value, table1, table2)`. -/
def cuckooInsertGo (H : Hashes) :
    Nat → String → String → List Slot → List Slot →
      Bool × String × String × List Slot × List Slot
  | 0, key, value, t1, t2 => (false, key, value, t1, t2)
  | iters + 1, key, value, t1, t2 =>
    let pos1 := cuckooHash1 H key
    match t1.getD pos1 none with
    | none => (true, key, value, t1.set pos1 (some (key, value)), t2)
    | some (k1, v1) =>
      if k1 = key then (true, key, value, t1.set pos1 (some (key, value)), t2)
      else
        -- kick out existing entry from table 1
        let t1' := t1.set pos1 (some (key, value))
        let pos2 := cuckooHash2 H k1
        match t2.getD pos2 none with
        | none => (true, k1, v1, t1', t2.set pos2 (some (k1, v1)))
        | some (k2, v2) =>
          if k2 = k1 then (true, k1, v1, t1', t2.set pos2 (some (k1, v1)))
          else
            -- kick out existing entry from table 2 and continue the chain
            cuckooInsertGo H iters k2 v2 t1' (t2.set pos2 (some (k1, v1)))

/-- `cuckoo_insert` with its default budget of 100 iterations: returns the
success flag and the updated tables. -/
def cuckoo_insert (H : Hashes) (key value : String) (t1 t2 : List Slot) :
    Bool × List Slot × List Slot :=
  let r := cuckooInsertGo H 100 key value t1 t2
  (r.1, r.2.2.2.1, r.2.2.2.2)

/-- Match a slot against a key, as in `cuckoo_lookup`'s
`table[pos] is not None and table[pos][0] == key`. -/
def slotValue (e : Slot) (key : String) : Option String :=
  match e with
  | some (k, v) => if k = key then some v else none
  | none => none

/-- `cuckoo_lookup`: probe slot `h1(key)` of table 1, then slot `h2(key)`
of table 2. -/
def cuckoo_lookup (H : Hashes) (t1 t2 : List Slot) (key : String) : Option String :=
  match slotValue (t1.getD (cuckooHash1 H key) none) key with
  | some v => some v
  | none => slotValue (t2.getD (cuckooHash2 H key) none) key

/-! ### Python `heapq` (used by `update_frequency` and the top-K queries)

The heap `most_frequent` holds pairs `(-count, short_url)`; Python compares
such tuples lexicographically (integer first, then string), which `pyLt`
captures.  `_siftdown`, `_siftup`, `heappush`, `heappop` and `heapify` are
translated statement by statement from CPython's `heapq.py`; out-of-range
list reads (which would raise `IndexError`) read a default junk value. -/

abbrev HeapEntry := Int × String

/-- Python's `<` on `(int, str)` tuples: lexicographic. -/
def pyLt (a b : HeapEntry) : Prop := a.1 < b.1 ∨ (a.1 = b.1 ∧ a.2 < b.2)

instance pyLtDec (a b : HeapEntry) : Decidable (pyLt a b) := by
  unfold pyLt; infer_instance

/-- Index of the parent of heap slot `i`: `(i - 1) >> 1`. -/
def parentIdx (i : Nat) : Nat := (i - 1) / 2

/-- The `while pos > startpos` loop of `heapq._siftdown`: bubble the hole at
`pos` up while `newitem` is smaller than the parent, shifting parents down.
Returns the final list and hole position. -/
def siftdownLoop (newitem : HeapEntry) (startpos : Nat) :
    List HeapEntry → Nat → List HeapEntry × Nat
  | heap, pos =>
    if h : startpos < pos then
      let pp := parentIdx pos
      let parent := heap.getD pp (0, "")
      if pyLt newitem parent then
        siftdownLoop newitem startpos (heap.set pos parent) pp
      else (heap, pos)
    else (heap, pos)
  termination_by heap pos => pos
  decreasing_by
    simp only [parentIdx]
    omega

/-- `heapq._siftdown(heap, startpos, pos)`. -/
def siftdown (heap : List HeapEntry) (startpos pos : Nat) : List HeapEntry :=
  let newitem := heap.getD pos (0, "")
  let r := siftdownLoop newitem startpos heap pos
  r.1.set r.2 newitem

/-- The `while childpos < endpos` loop of `heapq._siftup`: move the hole at
`pos` down to a leaf, shifting the smaller child up each step.  Returns the
final list and hole position. -/
def siftupLoop (endpos : Nat) : List HeapEntry → Nat → List HeapEntry × Nat
  | heap, pos =>
    if h : 2 * pos + 1 < endpos then
      let childpos := 2 * pos + 1
      let rightpos := childpos + 1
      let childpos :=
        if rightpos < endpos ∧
            ¬ pyLt (heap.getD childpos (0, "")) (heap.getD rightpos (0, "")) then
          rightpos
        else childpos
      siftupLoop endpos (heap.set pos (heap.getD childpos (0, ""))) childpos
  else (heap, pos)
  termination_by heap pos => endpos - pos
  decreasing_by
    split <;> omega

/-- `heapq._siftup(heap, pos)`: bubble the hole to a leaf, drop the saved
item there, then sift it back up towards `pos`. -/
def siftup (heap : List HeapEntry) (pos : Nat) : List HeapEntry :=
  let newitem := heap.getD pos (0, "")
  let r := siftupLoop heap.length heap pos
  siftdown (r.1.set r.2 newitem) pos r.2

/-- `heapq.heappush`: append, then sift the new last element down towards 0. -/
def heappush (heap : List HeapEntry) (item : HeapEntry) : List HeapEntry :=
  siftdown (heap ++ [item]) 0 heap.length

/-- `heapq.heappop`: pop the last element; if the heap is still nonempty,
move it to the root and sift up, returning the old root.  (Popping an empty
heap raises in Python; here it returns junk.) -/
def heappop (heap : List HeapEntry) : HeapEntry × List HeapEntry :=
  match heap.getLast? with
  | none => ((0, ""), [])
  | some lastelt =>
    let rest := heap.dropLast
    if rest.isEmpty then (lastelt, [])
    else (rest.getD 0 (0, ""), siftup (rest.set 0 lastelt) 0)

/-- The `for i in reversed(range(n//2))` loop of `heapq.heapify`. -/
def heapifyGo : List HeapEntry → Nat → List HeapEntry
  | heap, 0 => heap
  | heap, i + 1 => heapifyGo (siftup heap i) i

/-- `heapq.heapify`. -/
def heapify (heap : List HeapEntry) : List HeapEntry :=
  heapifyGo heap (heap.length / 2)

/-! ### Frequency tracking and the store façade (`main.py`) -/

/-- `update_frequency`: bump the access counter, then either replace the
url's heap entry in place and re-heapify (the `for ... else` scan), or push
a fresh entry. -/
def update_frequency (counter : String → Nat) (heap : List HeapEntry)
    (shortUrl : String) : (String → Nat) × List HeapEntry :=
  let counter' := fun u => if u = shortUrl then counter u + 1 else counter u
  let count := counter' shortUrl
  match heap.findIdx? (fun p => p.2 = shortUrl) with
  | some i => (counter', heapify (heap.set i (-(count : Int), shortUrl)))
  | none => (counter', heappush heap (-(count : Int), shortUrl))

/-- Python truthiness of the looked-up value: `None` and the empty string
are both falsy (`if not original_url`). -/
def falsy : Option String → Bool
  | none => true
  | some s => s = ""

/-- The mutable module-level state of `main.py`: the dict `url_map`, the two
cuckoo tables, the red-black tree, the access counter and the
`most_frequent` heap. -/
structure StoreState where
  urlMap : String → Option String
  t1 : List Slot
  t2 : List Slot
  tree : RBTree
  counter : String → Nat
  heap : List HeapEntry

/-- The initial module state: empty dict, two tables of `CUCKOO_SIZE` empty
slots, empty tree, empty counter, empty heap. -/
def emptyState : StoreState where
  urlMap := fun _ => none
  t1 := List.replicate CUCKOO_SIZE none
  t2 := List.replicate CUCKOO_SIZE none
  tree := .nil
  counter := fun _ => 0
  heap := []

/-- The storage effect of `shorten_url` (put): write the pair into the dict,
the cuckoo tables (success flag ignored) and the red-black tree.  `none`
models the unreachable crash of the tree rebalancing. -/
def storePut (H : Hashes) (s : StoreState) (shortHash url : String) :
    Option StoreState :=
  match s.tree.insert shortHash url with
  | none => none
  | some tr =>
    let r := cuckoo_insert H shortHash url s.t1 s.t2
    some { urlMap := fun k => if k = shortHash then some url else s.urlMap k
           t1 := r.2.1
           t2 := r.2.2
           tree := tr
           counter := s.counter
           heap := s.heap }

/-- `redirect_to_url` (get): probe the dict, then the cuckoo tables, then the
tree, each stage testing the value for truthiness; on a total miss raise 404
(`none`) touching nothing, otherwise record the access and return the value. -/
def storeGet (H : Hashes) (s : StoreState) (shortUrl : String) :
    Option String × StoreState :=
  let o1 := s.urlMap shortUrl
  let o2 := if falsy o1 then cuckoo_lookup H s.t1 s.t2 shortUrl else o1
  let o3 := if falsy o2 then s.tree.search shortUrl else o2
  if falsy o3 then (none, s)
  else
    let r := update_frequency s.counter s.heap shortUrl
    (o3, { s with counter := r.1, heap := r.2 })

/-- The pop-and-collect loop of `get_popular_urls`: run `min(10, len(heap))`
iterations, each popping the smallest `(neg_count, url)` and collecting
`(url, url_map[url], -neg_count)` when the url is in the dict. -/
def popTop (urlMap : String → Option String) :
    Nat → List HeapEntry → List (String × String × Int)
  | 0, _ => []
  | n + 1, heap =>
    if heap.isEmpty then popTop urlMap n heap
    else
      let r := heappop heap
      match urlMap r.1.2 with
      | some orig => (r.1.2, orig, -r.1.1) :: popTop urlMap n r.2
      | none => popTop urlMap n r.2

/-- `get_popular_urls`: top 10 most popular urls, from a copy of the heap. -/
def get_popular_urls (s : StoreState) : List (String × String × Int) :=
  popTop s.urlMap (min 10 s.heap.length) s.heap

/-- One externally visible operation on the store. -/
inductive Op where
  | put (k v : String)
  | get (k : String)

/-- Run one operation. -/
def runOp (H : Hashes) (s : StoreState) : Op → Option StoreState
  | .put k v => storePut H s k v
  | .get k => some (storeGet H s k).2

/-- Run a sequence of operations. -/
def runOps (H : Hashes) : StoreState → List Op → Option StoreState
  | s, [] => some s
  | s, op :: ops =>
    match runOp H s op with
    | none => none
    | some s' => runOps H s' ops

/-- A module state reachable from startup by some sequence of requests. -/
def Reachable (H : Hashes) (s : StoreState) : Prop :=
  ∃ ops, runOps H emptyState ops = some s

/-! ### Concrete hash instantiations used by witnesses and counterexamples

The real slot hashes are `md5`/`sha1` digests mod 1024; any function into
the slot range can arise, and collisions certainly do (there are far more
keys than slots).  Witnesses pick simple concrete digests. -/

/-- All digests zero: every key hashes to slot 0 in both tables. -/
def H0 : Hashes where
  md5Num := fun _ => 0
  sha1Num := fun _ => 0

/-- Digests making keys `"k"` and `"j"` collide in table 1 (slot 0) while
landing in different slots of table 2. -/
def Hdup : Hashes where
  md5Num := fun _ => 0
  sha1Num := fun s => if s = "k" then 1 else 2

/-! ### Basic facts about the lookup chain -/

theorem falsy_some_false {v : String} (hv : v ≠ "") : falsy (some v) = false := by
  simp [falsy, hv]

theorem falsy_eq_false {o : Option String} (h : falsy o = false) :
    ∃ v, o = some v ∧ v ≠ "" := by
  cases o with
  | none => simp [falsy] at h
  | some s =>
    refine ⟨s, rfl, ?_⟩
    simp [falsy] at h
    exact h

/-- On a dict hit with a truthy value, `redirect_to_url` returns that value
and only the tracker part of the state can change. -/
theorem storeGet_urlMap_hit (H : Hashes) (s : StoreState) (k v : String)
    (hm : s.urlMap k = some v) (hv : v ≠ "") :
    (storeGet H s k).1 = some v := by
  simp [storeGet, hm, falsy_some_false hv]

/-- `redirect_to_url` never changes the dict. -/
theorem storeGet_urlMap_eq (H : Hashes) (s : StoreState) (k : String) :
    (storeGet H s k).2.urlMap = s.urlMap := by
  unfold storeGet
  dsimp only
  cases h1 : falsy (s.urlMap k) <;>
    cases h2 : falsy (cuckoo_lookup H s.t1 s.t2 k) <;>
    cases h3 : falsy (s.tree.search k) <;>
    simp [h1, h2, h3]

/-- `redirect_to_url` never changes the tree. -/
theorem storeGet_tree_eq (H : Hashes) (s : StoreState) (k : String) :
    (storeGet H s k).2.tree = s.tree := by
  unfold storeGet
  dsimp only
  cases h1 : falsy (s.urlMap k) <;>
    cases h2 : falsy (cuckoo_lookup H s.t1 s.t2 k) <;>
    cases h3 : falsy (s.tree.search k) <;>
    simp [h1, h2, h3]

/-- Running any operation that is not a `put` on key `k` leaves the dict
entry of `k` unchanged. -/
theorem runOp_urlMap_preserved (H : Hashes) (s s' : StoreState) (k : String)
    (op : Op) (hop : ∀ w, op ≠ Op.put k w) (h : runOp H s op = some s') :
    s'.urlMap k = s.urlMap k := by
  cases op with
  | put k' v' =>
    have hk : k ≠ k' := by
      intro he
      exact hop v' (by rw [he])
    simp only [runOp, storePut] at h
    cases htr : (s.tree.insert k' v') with
    | none => rw [htr] at h; exact absurd h (by simp)
    | some tr =>
      rw [htr] at h
      simp only [Option.some.injEq] at h
      rw [← h]
      simp [hk]
  | get k' =>
    simp only [runOp, Option.some.injEq] at h
    rw [← h, storeGet_urlMap_eq]

/-- Running any sequence of operations containing no `put` on key `k`
leaves the dict entry of `k` unchanged. -/
theorem runOps_urlMap_preserved (H : Hashes) (k : String) :
    ∀ (ops : List Op) (s s' : StoreState),
      (∀ w, Op.put k w ∉ ops) → runOps H s ops = some s' →
      s'.urlMap k = s.urlMap k := by
  intro ops
  induction ops with
  | nil =>
    intro s s' _ h
    simp only [runOps, Option.some.injEq] at h
    rw [h]
  | cons op rest ih =>
    intro s s' hni h
    simp only [runOps] at h
    cases hop : runOp H s op with
    | none => rw [hop] at h; exact absurd h (by simp)
    | some s₁ =>
      rw [hop] at h
      have h1 : s₁.urlMap k = s.urlMap k :=
        runOp_urlMap_preserved H s s₁ k op
          (fun w he => hni w (by rw [he]; exact List.mem_cons_self _ _)) hop
      have h2 : s'.urlMap k = s₁.urlMap k :=
        ih s₁ s' (fun w hm => hni w (List.mem_cons_of_mem _ hm)) h
      rw [h2, h1]

/-- `shorten_url`'s storage writes always set the dict entry. -/
theorem storePut_urlMap (H : Hashes) (s s' : StoreState) (k v : String)
    (h : storePut H s k v = some s') : s'.urlMap k = some v := by
  simp only [storePut] at h
  cases htr : (s.tree.insert k v) with
  | none => rw [htr] at h; exact absurd h (by simp)
  | some tr =>
    rw [htr] at h
    simp only [Option.some.injEq] at h
    rw [← h]
    simp

/-! ### Claims C1, C10, C6 -/

/-- C1, counterexample: `put("k", "")` from the empty store succeeds (the
`map` is `some`), yet the subsequent `get("k")` yields `none` (HTTP 404)
rather than the stored empty string, because every stage of the lookup
chain tests truthiness.  This refutes the claim for the value `v = ""`. -/
theorem claim1_counterexample :
    (storePut H0 emptyState "k" "").map (fun s => (storeGet H0 s "k").1) =
      some none := by
  rfl

/-- C1 (amended: for nonempty values): after `put(k, v)` with `v ≠ ""`,
`get(k)` returns `v`, and keeps returning `v` across any further operations
that do not `put` to `k`; after a later `put(k, v2)` with `v2 ≠ ""`,
`get(k)` returns `v2`. -/
theorem claim1_roundtrip_nonempty (H : Hashes) (s s₁ s' : StoreState)
    (k v : String) (hv : v ≠ "") (hput : storePut H s k v = some s₁)
    (ops : List Op) (hops : ∀ w, Op.put k w ∉ ops)
    (hrun : runOps H s₁ ops = some s') :
    (storeGet H s' k).1 = some v ∧
      ∀ v2 s'', v2 ≠ "" → storePut H s' k v2 = some s'' →
        (storeGet H s'' k).1 = some v2 := by
  constructor
  · have h1 : s₁.urlMap k = some v := storePut_urlMap H s s₁ k v hput
    have h2 : s'.urlMap k = s₁.urlMap k :=
      runOps_urlMap_preserved H k ops s₁ s' hops hrun
    exact storeGet_urlMap_hit H s' k v (by rw [h2, h1]) hv
  · intro v2 s'' hv2 hput2
    exact storeGet_urlMap_hit H s'' k v2 (storePut_urlMap H s' s'' k v2 hput2) hv2

/-- C1 witness: a concrete round-trip through `put "k" "v"`, one
intervening `get`, and a later `put "k" "w"`. -/
theorem claim1_roundtrip_nonempty_witness :
    (storeGet H0 ((runOps H0 ((storePut H0 emptyState "k" "v").getD emptyState)
        [Op.get "k"]).getD emptyState) "k").1 = some "v" :=
  (claim1_roundtrip_nonempty H0 emptyState
    ((storePut H0 emptyState "k" "v").getD emptyState)
    ((runOps H0 ((storePut H0 emptyState "k" "v").getD emptyState)
        [Op.get "k"]).getD emptyState)
    "k" "v" (by decide) rfl [Op.get "k"]
    (by intro w h; simp at h) rfl).1

/-- C10: a key whose stored value is the empty string — in the dict, and in
the cuckoo/tree stages either absent or likewise empty — is reported as
"URL not found" (404, modelled as `none`) with the state untouched, because
every stage of `redirect_to_url` tests the value for truthiness. -/
theorem claim10_empty_value_reported_missing (H : Hashes) (s : StoreState)
    (k : String) (hm : s.urlMap k = some "")
    (hc : cuckoo_lookup H s.t1 s.t2 k = none ∨
          cuckoo_lookup H s.t1 s.t2 k = some "")
    (ht : s.tree.search k = none ∨ s.tree.search k = some "") :
    storeGet H s k = (none, s) := by
  rcases hc with hc | hc <;> rcases ht with ht | ht <;>
    simp [storeGet, hm, hc, ht, falsy]

/-- A concrete store holding the empty string for key `"x"` in all three
structures. -/
def emptyValueState : StoreState where
  urlMap := fun u => if u = "x" then some "" else none
  t1 := (List.replicate CUCKOO_SIZE none).set 0 (some ("x", ""))
  t2 := List.replicate CUCKOO_SIZE none
  tree := .node false .nil "x" "" .nil
  counter := fun _ => 0
  heap := []

/-- C10 witness: the concrete store above 404s on `"x"`. -/
theorem claim10_empty_value_reported_missing_witness :
    storeGet H0 emptyValueState "x" = (none, emptyValueState) :=
  claim10_empty_value_reported_missing H0 emptyValueState "x" rfl
    (Or.inr rfl) (Or.inr rfl)

/-- The counter component of `update_frequency` is a plain bump of the
accessed key's count. -/
theorem update_frequency_counter (c : String → Nat) (heap : List HeapEntry)
    (k : String) :
    (update_frequency c heap k).1 = fun u => if u = k then c u + 1 else c u := by
  unfold update_frequency
  dsimp only
  split <;> rfl

/-- On a hit, `redirect_to_url` updates the counter by bumping exactly the
accessed key. -/
theorem storeGet_hit_counter (H : Hashes) (s : StoreState) (k : String)
    (hhit : (storeGet H s k).1.isSome) :
    (storeGet H s k).2.counter =
      fun u => if u = k then s.counter u + 1 else s.counter u := by
  have hc := update_frequency_counter s.counter s.heap k
  unfold storeGet at *
  dsimp only at *
  cases h1 : falsy (s.urlMap k) <;>
    cases h2 : falsy (cuckoo_lookup H s.t1 s.t2 k) <;>
    cases h3 : falsy (s.tree.search k) <;>
    simp_all [falsy]

/-- On a miss, `redirect_to_url` leaves the state unchanged. -/
theorem storeGet_miss_state (H : Hashes) (s : StoreState) (k : String)
    (hmiss : (storeGet H s k).1 = none) :
    (storeGet H s k).2 = s := by
  unfold storeGet at *
  dsimp only at *
  cases h1 : falsy (s.urlMap k) <;>
    cases h2 : falsy (cuckoo_lookup H s.t1 s.t2 k) <;>
    cases h3 : falsy (s.tree.search k) <;>
    simp_all [falsy]

/-- C6: a successful `get(k)` bumps `k`'s access count by exactly one and
no other key's count (a previously untracked key enters at `0 + 1 = 1`);
a miss returns the state unchanged; counts never decrease. -/
theorem claim6_frequency_counts (H : Hashes) (s : StoreState) (k : String) :
    ((storeGet H s k).1.isSome →
        (storeGet H s k).2.counter k = s.counter k + 1 ∧
        ∀ k', k' ≠ k → (storeGet H s k).2.counter k' = s.counter k') ∧
    ((storeGet H s k).1 = none → (storeGet H s k).2 = s) ∧
    (∀ k', s.counter k' ≤ (storeGet H s k).2.counter k') := by
  refine ⟨fun hhit => ?_, storeGet_miss_state H s k, fun k' => ?_⟩
  · rw [storeGet_hit_counter H s k hhit]
    exact ⟨by simp, fun k' hk' => by simp [hk']⟩
  · cases ho : (storeGet H s k).1 with
    | none => rw [storeGet_miss_state H s k ho]
    | some w =>
      rw [storeGet_hit_counter H s k (by rw [ho]; rfl)]
      by_cases hk' : k' = k <;> simp [hk']

/-- A concrete store holding a truthy value for key `"x"` in the dict. -/
def hitState : StoreState :=
  { emptyState with urlMap := fun u => if u = "x" then some "y" else none }

/-- C6 witness: a concrete hit on a fresh key enters the tracker at 1. -/
theorem claim6_frequency_counts_witness :
    (storeGet H0 hitState "x").2.counter "x" = hitState.counter "x" + 1 :=
  ((claim6_frequency_counts H0 hitState "x").1 (by rfl)).1

/-! ### Cuckoo table invariants (claims C3 and C4) -/

/-- The keys currently stored in a table, in slot order. -/
def slotKeys (t : List Slot) : List String :=
  t.filterMap (fun e => e.map (·.1))

/-- Every occupied slot of table 1 is the slot its key's first hash picks. -/
def Placement1 (H : Hashes) (t1 : List Slot) : Prop :=
  ∀ i (hi : i < t1.length) k v, t1[i] = some (k, v) → cuckooHash1 H k = i

/-- Every occupied slot of table 2 is the slot its key's second hash picks. -/
def Placement2 (H : Hashes) (t2 : List Slot) : Prop :=
  ∀ i (hi : i < t2.length) k v, t2[i] = some (k, v) → cuckooHash2 H k = i

/-- A key is present somewhere in a table. -/
def keyInTable (t : List Slot) (k : String) : Prop :=
  ∃ i, ∃ _ : i < t.length, ∃ v, t[i] = some (k, v)

theorem getD_some_lt {t : List Slot} {i : Nat} {p : String × String}
    (h : t.getD i none = some p) : i < t.length := by
  by_contra hge
  rw [List.getD_eq_getElem?_getD, List.getElem?_eq_none (by omega)] at h
  simp at h

theorem getD_some_getElem {t : List Slot} {i : Nat} {p : String × String}
    (h : t.getD i none = some p) :
    ∃ _ : i < t.length, t[i] = some p := by
  have hi := getD_some_lt h
  refine ⟨hi, ?_⟩
  rw [List.getD_eq_getElem?_getD, List.getElem?_eq_getElem hi] at h
  simpa using h

/-- Decompose the key list around an occupied slot being overwritten. -/
theorem slotKeys_set {t : List Slot} {i : Nat} {k1 v1 : String}
    (c cv : String) (h : t.getD i none = some (k1, v1)) :
    ∃ A B, slotKeys t = A ++ k1 :: B ∧
      slotKeys (t.set i (some (c, cv))) = A ++ c :: B := by
  obtain ⟨hi, ht⟩ := getD_some_getElem h
  refine ⟨slotKeys (t.take i), slotKeys (t.drop (i + 1)), ?_, ?_⟩
  · conv_lhs => rw [← List.take_append_drop i t,
      ← List.getElem_cons_drop t i hi, ht]
    simp [slotKeys, List.filterMap_append]
  · rw [List.set_eq_take_cons_drop _ hi]
    simp [slotKeys, List.filterMap_append]

/-- Overwriting an *empty* slot appends the new key to the key multiset. -/
theorem slotKeys_set_none {t : List Slot} {i : Nat}
    (c cv : String) (h : t.getD i none = none) (hi : i < t.length) :
    ∃ A B, slotKeys t = A ++ B ∧
      slotKeys (t.set i (some (c, cv))) = A ++ c :: B := by
  have ht : t[i] = none := by
    rw [List.getD_eq_getElem?_getD, List.getElem?_eq_getElem hi] at h
    simpa using h
  refine ⟨slotKeys (t.take i), slotKeys (t.drop (i + 1)), ?_, ?_⟩
  · conv_lhs => rw [← List.take_append_drop i t,
      ← List.getElem_cons_drop t i hi, ht]
    simp [slotKeys, List.filterMap_append]
  · rw [List.set_eq_take_cons_drop _ hi]
    simp [slotKeys, List.filterMap_append]

theorem mem_slotKeys_of_getD {t : List Slot} {i : Nat} {k1 v1 : String}
    (h : t.getD i none = some (k1, v1)) : k1 ∈ slotKeys t := by
  obtain ⟨A, B, hA, -⟩ := slotKeys_set k1 v1 h
  rw [hA]
  simp

/-- The eviction loop never changes the lengths of the two tables. -/
theorem cuckooGo_lengths (H : Hashes) :
    ∀ (iters : Nat) (c cv : String) (t1 t2 : List Slot),
      (cuckooInsertGo H iters c cv t1 t2).2.2.2.1.length = t1.length ∧
      (cuckooInsertGo H iters c cv t1 t2).2.2.2.2.length = t2.length := by
  intro iters
  induction iters with
  | zero => intro c cv t1 t2; simp [cuckooInsertGo]
  | succ n ih =>
    intro c cv t1 t2
    unfold cuckooInsertGo
    simp only [← List.getD_eq_getElem?_getD]
    cases hget1 : t1.getD (cuckooHash1 H c) none with
    | none => simp
    | some p =>
      obtain ⟨k1, v1⟩ := p
      by_cases hk1c : k1 = c
      · simp [hk1c]
      · simp only [hk1c, if_false]
        cases hget2 : t2.getD (cuckooHash2 H k1) none with
        | none => simp
        | some q =>
          obtain ⟨k2, v2⟩ := q
          by_cases hk2 : k2 = k1
          · simp [hk2]
          · simp only [hk2, if_false]
            have := ih k2 v2 (t1.set (cuckooHash1 H c) (some (c, cv)))
              (t2.set (cuckooHash2 H k1) (some (k1, v1)))
            simpa using this

/-- Invariant carried through a failing eviction chain: with no duplicate
keys across the tables and a fresh inserted key, the pair held when the
budget runs out is in neither table (and the tables are still
duplicate-free). -/
theorem cuckooGo_failure (H : Hashes) :
    ∀ (iters : Nat) (c cv kL vL : String) (t1 t2 t1' t2' : List Slot),
      (slotKeys t1 ++ slotKeys t2).Nodup →
      c ∉ slotKeys t1 → c ∉ slotKeys t2 →
      cuckooInsertGo H iters c cv t1 t2 = (false, kL, vL, t1', t2') →
      kL ∉ slotKeys t1' ∧ kL ∉ slotKeys t2' ∧
        (slotKeys t1' ++ slotKeys t2').Nodup := by
  intro iters
  induction iters with
  | zero =>
    intro c cv kL vL t1 t2 t1' t2' hnd h1 h2 hrun
    simp only [cuckooInsertGo, Prod.mk.injEq] at hrun
    obtain ⟨-, hk, -, ht1, ht2⟩ := hrun
    subst hk; subst ht1; subst ht2
    exact ⟨h1, h2, hnd⟩
  | succ n ih =>
    intro c cv kL vL t1 t2 t1' t2' hnd h1 h2 hrun
    unfold cuckooInsertGo at hrun
    simp only [← List.getD_eq_getElem?_getD] at hrun
    cases hget1 : t1.getD (cuckooHash1 H c) none with
    | none => rw [hget1] at hrun; simp at hrun
    | some p =>
      obtain ⟨k1, v1⟩ := p
      rw [hget1] at hrun
      have hk1mem : k1 ∈ slotKeys t1 := mem_slotKeys_of_getD hget1
      have hk1c : ¬ (k1 = c) := fun he => h1 (he ▸ hk1mem)
      simp only [hk1c, if_false] at hrun
      cases hget2 : t2.getD (cuckooHash2 H k1) none with
      | none => rw [hget2] at hrun; simp at hrun
      | some q =>
        obtain ⟨k2, v2⟩ := q
        rw [hget2] at hrun
        have hk2mem : k2 ∈ slotKeys t2 := mem_slotKeys_of_getD hget2
        -- k1 is in table 1, so by duplicate-freedom it is not in table 2,
        -- hence the slot occupant k2 differs from k1
        have hdisj : ∀ x, x ∈ slotKeys t1 → x ∉ slotKeys t2 := by
          intro x hx hx2
          have := (List.nodup_append.mp hnd).2.2
          exact this hx hx2
        have hk2k1 : ¬ (k2 = k1) := fun he => hdisj k1 hk1mem (he ▸ hk2mem)
        simp only [hk2k1, if_false] at hrun
        -- decompose both writes
        obtain ⟨A, B, hA, hA'⟩ := slotKeys_set c cv hget1
        obtain ⟨A2, B2, hB, hB'⟩ := slotKeys_set k1 v1 hget2
        -- normalize all four key lists by permutation
        have p1 : (slotKeys t1).Perm (k1 :: (A ++ B)) := by
          rw [hA]; exact List.perm_middle
        have p1' : (slotKeys (t1.set (cuckooHash1 H c) (some (c, cv)))).Perm
            (c :: (A ++ B)) := by
          rw [hA']; exact List.perm_middle
        have p2 : (slotKeys t2).Perm (k2 :: (A2 ++ B2)) := by
          rw [hB]; exact List.perm_middle
        have p2' : (slotKeys (t2.set (cuckooHash2 H k1) (some (k1, v1)))).Perm
            (k1 :: (A2 ++ B2)) := by
          rw [hB']; exact List.perm_middle
        have hndP : (k1 :: ((A ++ B) ++ (k2 :: (A2 ++ B2)))).Nodup := by
          have h := ((p1.append p2).nodup_iff).mp hnd
          simpa using h
        rw [List.nodup_cons] at hndP
        obtain ⟨hk1nm, hndrest⟩ := hndP
        have hndrest2 : (k2 :: ((A ++ B) ++ (A2 ++ B2))).Nodup :=
          (List.perm_middle.nodup_iff).mp hndrest
        rw [List.nodup_cons] at hndrest2
        obtain ⟨hk2nm, hndLM⟩ := hndrest2
        simp only [List.mem_append, List.mem_cons, not_or] at hk1nm hk2nm
        obtain ⟨⟨hk1A, hk1B⟩, hk1k2, hk1A2, hk1B2⟩ := hk1nm
        obtain ⟨⟨hk2A, hk2B⟩, hk2A2, hk2B2⟩ := hk2nm
        have hc1 : c ∉ k1 :: (A ++ B) := fun hm => h1 (p1.mem_iff.mpr hm)
        have hc2 : c ∉ k2 :: (A2 ++ B2) := fun hm => h2 (p2.mem_iff.mpr hm)
        simp only [List.mem_cons, List.mem_append, not_or] at hc1 hc2
        obtain ⟨hck1, hcA, hcB⟩ := hc1
        obtain ⟨hck2, hcA2, hcB2⟩ := hc2
        -- invariant for the recursive call
        have inv1 : k2 ∉ slotKeys (t1.set (cuckooHash1 H c) (some (c, cv))) := by
          rw [p1'.mem_iff]
          simp only [List.mem_cons, List.mem_append, not_or]
          exact ⟨fun he => hck2 he.symm, hk2A, hk2B⟩
        have inv2 : k2 ∉ slotKeys (t2.set (cuckooHash2 H k1) (some (k1, v1))) := by
          rw [p2'.mem_iff]
          simp only [List.mem_cons, List.mem_append, not_or]
          exact ⟨hk2k1, hk2A2, hk2B2⟩
        have invnd :
            (slotKeys (t1.set (cuckooHash1 H c) (some (c, cv))) ++
             slotKeys (t2.set (cuckooHash2 H k1) (some (k1, v1)))).Nodup := by
          refine ((p1'.append p2').nodup_iff).mpr ?_
          have hstep : (c :: ((A ++ B) ++ (k1 :: (A2 ++ B2)))).Nodup := by
            rw [List.nodup_cons]
            constructor
            · simp only [List.mem_append, List.mem_cons, not_or]
              exact ⟨⟨hcA, hcB⟩, hck1, hcA2, hcB2⟩
            · refine (List.perm_middle.nodup_iff).mpr ?_
              rw [List.nodup_cons]
              exact ⟨by
                simp only [List.mem_append, not_or]
                exact ⟨⟨hk1A, hk1B⟩, hk1A2, hk1B2⟩, hndLM⟩
          simpa using hstep
        exact ih k2 v2 kL vL _ _ _ _ invnd inv1 inv2 hrun

/-- Writing a pair into the slot its first hash picks preserves table-1
placement. -/
theorem placement1_set (H : Hashes) {t1 : List Slot} (hp : Placement1 H t1)
    (k v : String) : Placement1 H (t1.set (cuckooHash1 H k) (some (k, v))) := by
  intro i hi k' v' hget
  rw [List.length_set] at hi
  rw [List.getElem_set] at hget
  split at hget
  · next heq =>
    simp only [Option.some.injEq, Prod.mk.injEq] at hget
    rw [← hget.1]
    exact heq
  · next hne => exact hp i hi k' v' hget

/-- Writing a pair into the slot its second hash picks preserves table-2
placement. -/
theorem placement2_set (H : Hashes) {t2 : List Slot} (hp : Placement2 H t2)
    (k v : String) : Placement2 H (t2.set (cuckooHash2 H k) (some (k, v))) := by
  intro i hi k' v' hget
  rw [List.length_set] at hi
  rw [List.getElem_set] at hget
  split at hget
  · next heq =>
    simp only [Option.some.injEq, Prod.mk.injEq] at hget
    rw [← hget.1]
    exact heq
  · next hne => exact hp i hi k' v' hget

/-- The eviction loop writes each pair only into a slot dictated by the
pair's own hash, so slot placement is invariant. -/
theorem cuckooGo_placement (H : Hashes) :
    ∀ (iters : Nat) (c cv : String) (t1 t2 : List Slot),
      Placement1 H t1 → Placement2 H t2 →
      Placement1 H (cuckooInsertGo H iters c cv t1 t2).2.2.2.1 ∧
      Placement2 H (cuckooInsertGo H iters c cv t1 t2).2.2.2.2 := by
  intro iters
  induction iters with
  | zero =>
    intro c cv t1 t2 hp1 hp2
    exact ⟨hp1, hp2⟩
  | succ n ih =>
    intro c cv t1 t2 hp1 hp2
    unfold cuckooInsertGo
    simp only [← List.getD_eq_getElem?_getD]
    cases hget1 : t1.getD (cuckooHash1 H c) none with
    | none => exact ⟨placement1_set H hp1 c cv, hp2⟩
    | some p =>
      obtain ⟨k1, v1⟩ := p
      by_cases hk1c : k1 = c
      · simp only [hk1c, if_true]
        exact ⟨placement1_set H hp1 c cv, hp2⟩
      · simp only [hk1c, if_false]
        cases hget2 : t2.getD (cuckooHash2 H k1) none with
        | none => exact ⟨placement1_set H hp1 c cv, placement2_set H hp2 k1 v1⟩
        | some q =>
          obtain ⟨k2, v2⟩ := q
          by_cases hk2 : k2 = k1
          · simp only [hk2, if_true]
            exact ⟨placement1_set H hp1 c cv, placement2_set H hp2 k1 v1⟩
          · simp only [hk2, if_false]
            exact ih k2 v2 _ _ (placement1_set H hp1 c cv)
              (placement2_set H hp2 k1 v1)

/-- Under slot placement, `cuckoo_lookup` finds every key present in either
table with its two probes. -/
theorem cuckoo_lookup_finds (H : Hashes) {t1 t2 : List Slot}
    (hp1 : Placement1 H t1) (hp2 : Placement2 H t2) (k : String)
    (hk : keyInTable t1 k ∨ keyInTable t2 k) :
    (cuckoo_lookup H t1 t2 k).isSome := by
  unfold cuckoo_lookup
  rcases hk with ⟨i, hi, v, hget⟩ | ⟨i, hi, v, hget⟩
  · have hhash : cuckooHash1 H k = i := hp1 i hi k v hget
    have hd : t1.getD (cuckooHash1 H k) none = some (k, v) := by
      rw [hhash, List.getD_eq_getElem?_getD, List.getElem?_eq_getElem hi, hget]
      rfl
    rw [hd]
    simp [slotValue]
  · cases hfirst : slotValue (t1.getD (cuckooHash1 H k) none) k with
    | some w => simp
    | none =>
      have hhash : cuckooHash2 H k = i := hp2 i hi k v hget
      have hd : t2.getD (cuckooHash2 H k) none = some (k, v) := by
        rw [hhash, List.getD_eq_getElem?_getD, List.getElem?_eq_getElem hi, hget]
        rfl
      rw [hd]
      simp [slotValue]

/-- A sequence of `cuckoo_insert` calls, as in the claim "after any sequence
of cuckoo_insert calls starting from empty tables". -/
def cuckooRun (H : Hashes) :
    List (String × String) → List Slot × List Slot → List Slot × List Slot
  | [], ts => ts
  | p :: ps, ts =>
    let r := cuckoo_insert H p.1 p.2 ts.1 ts.2
    cuckooRun H ps (r.2.1, r.2.2)

/-- The empty pair of tables the module initializes. -/
def emptyTables : List Slot × List Slot :=
  (List.replicate CUCKOO_SIZE none, List.replicate CUCKOO_SIZE none)

theorem cuckooRun_placement (H : Hashes) :
    ∀ (ps : List (String × String)) (ts : List Slot × List Slot),
      Placement1 H ts.1 → Placement2 H ts.2 →
      Placement1 H (cuckooRun H ps ts).1 ∧
      Placement2 H (cuckooRun H ps ts).2 := by
  intro ps
  induction ps with
  | nil => intro ts hp1 hp2; exact ⟨hp1, hp2⟩
  | cons p rest ih =>
    intro ts hp1 hp2
    have h := cuckooGo_placement H 100 p.1 p.2 ts.1 ts.2 hp1 hp2
    exact ih _ h.1 h.2

theorem placement1_empty (H : Hashes) :
    Placement1 H (List.replicate CUCKOO_SIZE none) := by
  intro i hi k v hget
  rw [List.getElem_replicate] at hget
  exact absurd hget (by simp)

theorem placement2_empty (H : Hashes) :
    Placement2 H (List.replicate CUCKOO_SIZE none) := by
  intro i hi k v hget
  rw [List.getElem_replicate] at hget
  exact absurd hget (by simp)

/-! ### Claims C3 and C4 -/

/-- C3, counterexample: with digests under which `"k"` and `"j"` collide in
table 1, the sequence insert `k`, insert `j` (which evicts `k` into table
2), insert `k` again (which re-places `k` in table 1) leaves key `"k"`
occupying two slots at once — refuting "every key occupies exactly one slot
across the two tables" and in particular "re-inserting an existing key does
not duplicate it". -/
theorem claim3_counterexample :
    (slotKeys (cuckooRun Hdup [("k", "u1"), ("j", "uj"), ("k", "v0")] emptyTables).1 ++
     slotKeys (cuckooRun Hdup [("k", "u1"), ("j", "uj"), ("k", "v0")] emptyTables).2).count "k" = 2 := by
  decide

/-- C3 (amended): after any sequence of `cuckoo_insert` calls starting from
empty tables, every occurrence of a key sits in the slot its hash dictates —
slot `h1(key)` of table 1 or slot `h2(key)` of table 2 — and `lookup` finds
every present key within its two probes; but a key may occupy both tables
at once after re-insertion (the "exactly one slot" part fails, see the
counterexample). -/
theorem claim3_slot_placement (H : Hashes) (ps : List (String × String)) :
    Placement1 H (cuckooRun H ps emptyTables).1 ∧
    Placement2 H (cuckooRun H ps emptyTables).2 ∧
    ∀ k, keyInTable (cuckooRun H ps emptyTables).1 k ∨
         keyInTable (cuckooRun H ps emptyTables).2 k →
      (cuckoo_lookup H (cuckooRun H ps emptyTables).1
        (cuckooRun H ps emptyTables).2 k).isSome := by
  have h := cuckooRun_placement H ps emptyTables
    (placement1_empty H) (placement2_empty H)
  exact ⟨h.1, h.2, fun k hk => cuckoo_lookup_finds H h.1 h.2 k hk⟩

/-- C3 witness: in the concrete duplicated state, lookup still finds `"k"`. -/
theorem claim3_slot_placement_witness :
    (cuckoo_lookup Hdup
      (cuckooRun Hdup [("k", "u1"), ("j", "uj"), ("k", "v0")] emptyTables).1
      (cuckooRun Hdup [("k", "u1"), ("j", "uj"), ("k", "v0")] emptyTables).2
      "k").isSome :=
  (claim3_slot_placement Hdup [("k", "u1"), ("j", "uj"), ("k", "v0")]).2.2 "k"
    (Or.inl ⟨0, by decide, "v0", by decide⟩)

/-- C4: when the displacement budget (100 iterations) runs out, the insert
reports failure, the tables keep their sizes (no resize), and — starting
from duplicate-free tables and a key not yet present — the pair evicted
last in the chain is stored in neither table afterwards: it is silently
dropped. -/
theorem claim4_exhausted_budget_drops_pair (H : Hashes)
    (k v kL vL : String) (t1 t2 t1' t2' : List Slot)
    (hnd : (slotKeys t1 ++ slotKeys t2).Nodup)
    (h1 : k ∉ slotKeys t1) (h2 : k ∉ slotKeys t2)
    (hrun : cuckooInsertGo H 100 k v t1 t2 = (false, kL, vL, t1', t2')) :
    t1'.length = t1.length ∧ t2'.length = t2.length ∧
    kL ∉ slotKeys t1' ∧ kL ∉ slotKeys t2' := by
  have hl := cuckooGo_lengths H 100 k v t1 t2
  rw [hrun] at hl
  have hf := cuckooGo_failure H 100 k v kL vL t1 t2 t1' t2' hnd h1 h2 hrun
  exact ⟨hl.1, hl.2, hf.1, hf.2.1⟩

/-- Table 1 of the concrete failing run: slot 0 occupied by `("a", "x")`. -/
def wt1 : List Slot := (List.replicate CUCKOO_SIZE none).set 0 (some ("a", "x"))

/-- Table 2 of the concrete failing run: slot 0 occupied by `("b", "y")`. -/
def wt2 : List Slot := (List.replicate CUCKOO_SIZE none).set 0 (some ("b", "y"))

/-- The failing chain: all hashes 0, inserting `"c"` cycles forever. -/
def wrun4 : Bool × String × String × List Slot × List Slot :=
  cuckooInsertGo H0 100 "c" "z" wt1 wt2

/-- C4 witness: the concrete exhausted chain drops the pair `("b", "y")`. -/
theorem claim4_exhausted_budget_drops_pair_witness :
    wrun4.2.2.2.1.length = wt1.length ∧ wrun4.2.2.2.2.length = wt2.length ∧
    "b" ∉ slotKeys wrun4.2.2.2.1 ∧ "b" ∉ slotKeys wrun4.2.2.2.2 :=
  claim4_exhausted_budget_drops_pair H0 "c" "z" "b" "y" wt1 wt2
    wrun4.2.2.2.1 wrun4.2.2.2.2 (by decide) (by decide) (by decide) rfl

/-! ### Red-black balance invariants (claim C2)

`Balanced t c n` says: `t` has root color `c`, no red node has a red
child anywhere inside, and every path from the root down to a `nil`
sentinel crosses exactly `n` black nodes. -/

inductive Balanced : RBTree → Bool → Nat → Prop where
  | nil : Balanced .nil false 0
  | red {l r : RBTree} {k v : String} {n : Nat} :
      Balanced l false n → Balanced r false n →
      Balanced (.node true l k v r) true n
  | black {l r : RBTree} {k v : String} {cl cr : Bool} {n : Nat} :
      Balanced l cl n → Balanced r cr n →
      Balanced (.node false l k v r) false (n + 1)

/-- `Spine p n` says the ancestor path `p` is a well-formed red-black
context around a hole of black-height `n`: siblings are balanced with
matching heights, a red ancestor has a black-rooted sibling and a black
parent above it (no red-red along the spine). -/
inductive Spine : List PathStep → Nat → Prop where
  | nil {n : Nat} : Spine [] n
  | black {d : Dir} {k v : String} {sib : RBTree} {rest : List PathStep}
      {n : Nat} {cs : Bool} :
      Balanced sib cs n → Spine rest (n + 1) →
      Spine (⟨d, false, k, v, sib⟩ :: rest) n
  | red {d : Dir} {k v : String} {sib : RBTree} {g : PathStep}
      {rest : List PathStep} {n : Nat} :
      Balanced sib false n → g.color = false → Spine (g :: rest) n →
      Spine (⟨d, true, k, v, sib⟩ :: g :: rest) n

/-- The color the root of `zipPath p x` will have, given `x`'s root color. -/
def lastColor : List PathStep → Bool → Bool
  | [], c => c
  | st :: p, _ => lastColor p st.color

theorem lastColor_irrel {p : List PathStep} (hp : p ≠ []) (a b : Bool) :
    lastColor p a = lastColor p b := by
  cases p with
  | nil => exact absurd rfl hp
  | cons st rest => rfl

/-- A balanced tree's root is red exactly when its color index is red. -/
theorem balanced_isRed {t : RBTree} {c : Bool} {n : Nat}
    (h : Balanced t c n) : isRed t = c := by
  cases h <;> rfl

/-- Forcing the root black preserves balance (possibly raising the black
height by one). -/
theorem blackenRoot_balanced {t : RBTree} {c : Bool} {n : Nat}
    (h : Balanced t c n) : ∃ m, Balanced (blackenRoot t) false m := by
  cases h with
  | nil => exact ⟨0, Balanced.nil⟩
  | red hl hr => exact ⟨_, Balanced.black hl hr⟩
  | black hl hr => exact ⟨_, Balanced.black hl hr⟩

/-- Blackening a red root raises the black height by exactly one. -/
theorem blackenRoot_balanced_red {t : RBTree} {n : Nat}
    (h : Balanced t true n) : Balanced (blackenRoot t) false (n + 1) := by
  cases h with
  | red hl hr => exact Balanced.black hl hr

/-- Zipping a balanced subtree through a well-formed spine yields a
balanced tree whose root color is the spine's outermost color; a red
subtree additionally needs a black immediate parent (or no parent). -/
theorem zip_balanced :
    ∀ (p : List PathStep) (n : Nat), Spine p n →
      ∀ (x : RBTree) (c : Bool), Balanced x c n →
      (c = true → ∀ st ∈ p.head?, st.color = false) →
      ∃ m, Balanced (zipPath p x) (lastColor p c) m := by
  intro p
  induction p with
  | nil =>
    intro n _ x c hx _
    exact ⟨n, hx⟩
  | cons st rest ih =>
    intro n hs x c hx hc
    obtain ⟨d, cst, k, v, sib⟩ := st
    cases hs with
    | black hsib hrest =>
      have hplug : Balanced (plug ⟨d, false, k, v, sib⟩ x) false (n + 1) := by
        cases d with
        | left => exact Balanced.black hx hsib
        | right => exact Balanced.black hsib hx
      exact ih (n + 1) hrest _ false hplug (fun h => absurd h (by simp))
    | red hsib hg hrest =>
      have hcf : c = false := by
        cases c with
        | false => rfl
        | true => exact absurd (hc rfl ⟨d, true, k, v, sib⟩ rfl) (by simp)
      subst hcf
      have hplug : Balanced (plug ⟨d, true, k, v, sib⟩ x) true n := by
        cases d with
        | left => exact Balanced.red hx hsib
        | right => exact Balanced.red hsib hx
      refine ih n hrest _ true hplug ?_
      intro h st hmem
      simp only [List.head?_cons, Option.mem_def, Option.some.injEq] at hmem
      exact hmem ▸ hg

theorem balanced_red_inv {t : RBTree} {n : Nat} (h : Balanced t true n) :
    ∃ l k v r, t = .node true l k v r ∧
      Balanced l false n ∧ Balanced r false n := by
  cases h with
  | red hl hr => exact ⟨_, _, _, _, rfl, hl, hr⟩

theorem spine_red_inv {d : Dir} {k v : String} {sib : RBTree}
    {rest : List PathStep} {n : Nat}
    (h : Spine (⟨d, true, k, v, sib⟩ :: rest) n) :
    Balanced sib false n ∧
      ∃ g rest', rest = g :: rest' ∧ g.color = false ∧ Spine (g :: rest') n := by
  cases h with
  | red hsib hg hrest => exact ⟨hsib, _, _, rfl, hg, hrest⟩

theorem spine_black_inv {d : Dir} {k v : String} {sib : RBTree}
    {rest : List PathStep} {n : Nat}
    (h : Spine (⟨d, false, k, v, sib⟩ :: rest) n) :
    (∃ cs, Balanced sib cs n) ∧ Spine rest (n + 1) := by
  cases h with
  | black hsib hrest => exact ⟨⟨_, hsib⟩, hrest⟩

/-- Core rebalancing lemma: starting from a red focused subtree and a
well-formed spine, `_fix_insert` terminates without crashing and returns a
tree satisfying all red-black invariants (black root included). -/
theorem fixInsert_ok_aux :
    ∀ (L : Nat) (p : List PathStep), p.length ≤ L →
      ∀ (kt : RBTree) (n : Nat), Balanced kt true n → Spine p n →
      ∃ t', fixInsert kt p = some t' ∧ ∃ m, Balanced t' false m := by
  intro L
  induction L with
  | zero =>
    intro p hp kt n hk _
    have hnil : p = [] := List.eq_nil_of_length_eq_zero (Nat.le_zero.mp hp)
    subst hnil
    exact ⟨_, rfl, n + 1, blackenRoot_balanced_red hk⟩
  | succ L ih =>
    intro p hp kt n hk hs
    cases p with
    | nil => exact ⟨_, rfl, n + 1, blackenRoot_balanced_red hk⟩
    | cons pst rest =>
      obtain ⟨pd, pc, pk, pv, psib⟩ := pst
      cases pc with
      | false =>
        -- parent black: the loop exits; zip up and blacken the root
        obtain ⟨m0, hz⟩ := zip_balanced (⟨pd, false, pk, pv, psib⟩ :: rest) n hs
          kt true hk (fun _ st hmem => by
            simp only [List.head?_cons, Option.mem_def, Option.some.injEq] at hmem
            exact hmem ▸ rfl)
        obtain ⟨m, hb⟩ := blackenRoot_balanced hz
        refine ⟨blackenRoot (zipPath (⟨pd, false, pk, pv, psib⟩ :: rest) kt),
          ?_, m, hb⟩
        cases rest with
        | nil => rfl
        | cons g rest' => rfl
      | true =>
        obtain ⟨hpsib, g, rest', hrest, hg, hgs⟩ := spine_red_inv hs
        subst hrest
        obtain ⟨gd, gc, gk, gv, gsib⟩ := g
        have hgc : gc = false := hg
        subst hgc
        obtain ⟨⟨cg, hgsib⟩, hrest'⟩ := spine_black_inv hgs
        obtain ⟨kl, kk, kv2, kr, hkt, hkl, hkr⟩ := balanced_red_inv hk
        subst hkt
        have hlen : rest'.length ≤ L := by
          simp only [List.length_cons] at hp
          omega
        have hired : isRed gsib = cg := balanced_isRed hgsib
        cases gd with
        | right =>
          cases cg with
          | true =>
            -- uncle red: recolor and continue two levels up
            have hbg : Balanced (blackenRoot gsib) false (n + 1) :=
              blackenRoot_balanced_red hgsib
            cases pd with
            | left =>
              obtain ⟨t', heq, m, hb⟩ := ih rest' hlen _ (n + 1)
                (Balanced.red hbg
                  (Balanced.black (l := .node true kl kk kv2 kr) hk hpsib))
                hrest'
              refine ⟨t', ?_, m, hb⟩
              simp [fixInsert, hired, uncleRedStep]
              exact heq
            | right =>
              obtain ⟨t', heq, m, hb⟩ := ih rest' hlen _ (n + 1)
                (Balanced.red hbg
                  (Balanced.black (r := .node true kl kk kv2 kr) hpsib hk))
                hrest'
              refine ⟨t', ?_, m, hb⟩
              simp [fixInsert, hired, uncleRedStep]
              exact heq
          | false =>
            -- uncle black: one or two rotations, then the loop exits
            cases pd with
            | left =>
              -- triangle
              have hS : Balanced
                  (.node false (.node true gsib gk gv kl) kk kv2
                               (.node true kr pk pv psib)) false (n + 1) :=
                Balanced.black (Balanced.red hgsib hkl) (Balanced.red hkr hpsib)
              obtain ⟨m0, hz⟩ := zip_balanced rest' (n + 1) hrest' _ false hS
                (fun h => absurd h (by simp))
              obtain ⟨m, hb⟩ := blackenRoot_balanced hz
              refine ⟨blackenRoot (zipPath rest'
                (.node false (.node true gsib gk gv kl) kk kv2
                             (.node true kr pk pv psib))), ?_, m, hb⟩
              simp [fixInsert, hired, rotateStep]
            | right =>
              -- line
              have hS : Balanced
                  (.node false (.node true gsib gk gv psib) pk pv
                               (.node true kl kk kv2 kr)) false (n + 1) :=
                Balanced.black (Balanced.red hgsib hpsib) hk
              obtain ⟨m0, hz⟩ := zip_balanced rest' (n + 1) hrest' _ false hS
                (fun h => absurd h (by simp))
              obtain ⟨m, hb⟩ := blackenRoot_balanced hz
              refine ⟨blackenRoot (zipPath rest'
                (.node false (.node true gsib gk gv psib) pk pv
                             (.node true kl kk kv2 kr))), ?_, m, hb⟩
              simp [fixInsert, hired, rotateStep]
        | left =>
          cases cg with
          | true =>
            have hbg : Balanced (blackenRoot gsib) false (n + 1) :=
              blackenRoot_balanced_red hgsib
            cases pd with
            | left =>
              obtain ⟨t', heq, m, hb⟩ := ih rest' hlen _ (n + 1)
                (Balanced.red
                  (Balanced.black (l := .node true kl kk kv2 kr) hk hpsib) hbg)
                hrest'
              refine ⟨t', ?_, m, hb⟩
              simp [fixInsert, hired, uncleRedStep]
              exact heq
            | right =>
              obtain ⟨t', heq, m, hb⟩ := ih rest' hlen _ (n + 1)
                (Balanced.red
                  (Balanced.black (r := .node true kl kk kv2 kr) hpsib hk) hbg)
                hrest'
              refine ⟨t', ?_, m, hb⟩
              simp [fixInsert, hired, uncleRedStep]
              exact heq
          | false =>
            cases pd with
            | right =>
              -- triangle (mirror)
              have hS : Balanced
                  (.node false (.node true psib pk pv kl) kk kv2
                               (.node true kr gk gv gsib)) false (n + 1) :=
                Balanced.black (Balanced.red hpsib hkl) (Balanced.red hkr hgsib)
              obtain ⟨m0, hz⟩ := zip_balanced rest' (n + 1) hrest' _ false hS
                (fun h => absurd h (by simp))
              obtain ⟨m, hb⟩ := blackenRoot_balanced hz
              refine ⟨blackenRoot (zipPath rest'
                (.node false (.node true psib pk pv kl) kk kv2
                             (.node true kr gk gv gsib))), ?_, m, hb⟩
              simp [fixInsert, hired, rotateStep]
            | left =>
              -- line (mirror)
              have hS : Balanced
                  (.node false (.node true kl kk kv2 kr) pk pv
                               (.node true psib gk gv gsib)) false (n + 1) :=
                Balanced.black hk (Balanced.red hpsib hgsib)
              obtain ⟨m0, hz⟩ := zip_balanced rest' (n + 1) hrest' _ false hS
                (fun h => absurd h (by simp))
              obtain ⟨m, hb⟩ := blackenRoot_balanced hz
              refine ⟨blackenRoot (zipPath rest'
                (.node false (.node true kl kk kv2 kr) pk pv
                             (.node true psib gk gv gsib))), ?_, m, hb⟩
              simp [fixInsert, hired, rotateStep]

theorem lastColor_cons (st : PathStep) (p : List PathStep) (a : Bool) :
    lastColor (st :: p) a = lastColor p st.color := rfl

/-- The BST descent of `insert` preserves the red-black invariants: from a
balanced subtree and a well-formed spine (with a black step above any red
subtree, and a black outermost color), the insert returns a tree satisfying
all invariants. -/
theorem insertGo_ok (k v : String) :
    ∀ (t : RBTree) (c : Bool) (n : Nat) (path : List PathStep),
      Balanced t c n → Spine path n →
      (c = true → ∃ st rest0, path = st :: rest0 ∧ st.color = false) →
      lastColor path c = false →
      ∃ t', insertGo k v t path = some t' ∧ ∃ m, Balanced t' false m := by
  intro t
  induction t with
  | nil =>
    intro c n path hb hs hred hlast
    cases hb with
    | nil =>
      cases path with
      | nil =>
        exact ⟨_, rfl, 1, Balanced.black Balanced.nil Balanced.nil⟩
      | cons st rest =>
        cases rest with
        | nil =>
          obtain ⟨d, cst, k2, v2, sib⟩ := st
          have hcst : cst = false := by simpa [lastColor] using hlast
          subst hcst
          obtain ⟨⟨cs, hsib⟩, -⟩ := spine_black_inv hs
          cases d with
          | left =>
            exact ⟨_, rfl, 1,
              Balanced.black (Balanced.red Balanced.nil Balanced.nil) hsib⟩
          | right =>
            exact ⟨_, rfl, 1,
              Balanced.black hsib (Balanced.red Balanced.nil Balanced.nil)⟩
        | cons st2 rest2 =>
          obtain ⟨t', heq, m, hbt⟩ := fixInsert_ok_aux
            (st :: st2 :: rest2).length (st :: st2 :: rest2) (Nat.le_refl _)
            (.node true .nil k v .nil) 0
            (Balanced.red Balanced.nil Balanced.nil) hs
          exact ⟨t', heq, m, hbt⟩
  | node c0 l key' val' r ihl ihr =>
    intro c n path hb hs hred hlast
    have hc0 : c0 = c := by cases hb <;> rfl
    subst hc0
    rcases lt_trichotomy k key' with hlt | heqk | hgt
    · -- descend left
      cases hb with
      | red hl hr =>
        obtain ⟨st, rest0, hpath, hstc⟩ := hred rfl
        subst hpath
        have hs' : Spine (⟨.left, true, key', val', r⟩ :: st :: rest0) n :=
          Spine.red hr hstc hs
        obtain ⟨t', heq, m, hbt⟩ := ihl false n _ hl hs'
          (fun hcc => absurd hcc (by simp)) hlast
        refine ⟨t', ?_, m, hbt⟩
        simp only [insertGo]
        rw [if_pos hlt]
        exact heq
      | black hl hr =>
        have hs' : Spine (⟨.left, false, key', val', r⟩ :: path) _ :=
          Spine.black hr hs
        obtain ⟨t', heq, m, hbt⟩ := ihl _ _ _ hl hs'
          (fun _ => ⟨_, _, rfl, rfl⟩) hlast
        refine ⟨t', ?_, m, hbt⟩
        simp only [insertGo]
        rw [if_pos hlt]
        exact heq
    · -- key found: overwrite the value in place
      subst heqk
      have hrebuilt : Balanced (.node c0 l k v r) c0 n := by
        cases hb with
        | red hl hr => exact Balanced.red hl hr
        | black hl hr => exact Balanced.black hl hr
      obtain ⟨m, hz⟩ := zip_balanced path n hs _ c0 hrebuilt
        (fun hc st' hmem => by
          obtain ⟨st, rest0, hpath, hstc⟩ := hred hc
          subst hpath
          simp only [List.head?_cons, Option.mem_def, Option.some.injEq] at hmem
          exact hmem ▸ hstc)
      rw [hlast] at hz
      refine ⟨zipPath path (.node c0 l k v r), ?_, m, hz⟩
      simp only [insertGo]
      rw [if_neg (lt_irrefl k), if_neg (lt_irrefl k)]
    · -- descend right
      cases hb with
      | red hl hr =>
        obtain ⟨st, rest0, hpath, hstc⟩ := hred rfl
        subst hpath
        have hs' : Spine (⟨.right, true, key', val', l⟩ :: st :: rest0) n :=
          Spine.red hl hstc hs
        obtain ⟨t', heq, m, hbt⟩ := ihr false n _ hr hs'
          (fun hcc => absurd hcc (by simp)) hlast
        refine ⟨t', ?_, m, hbt⟩
        simp only [insertGo]
        rw [if_neg (asymm hgt), if_pos hgt]
        exact heq
      | black hl hr =>
        have hs' : Spine (⟨.right, false, key', val', l⟩ :: path) _ :=
          Spine.black hl hs
        obtain ⟨t', heq, m, hbt⟩ := ihr _ _ _ hr hs'
          (fun _ => ⟨_, _, rfl, rfl⟩) hlast
        refine ⟨t', ?_, m, hbt⟩
        simp only [insertGo]
        rw [if_neg (asymm hgt), if_pos hgt]
        exact heq

/-- `RedBlackTree.insert` on a balanced black-rooted tree succeeds (the
rebalancing never dereferences `None`) and returns a balanced black-rooted
tree. -/
theorem insert_balanced {t : RBTree} {n : Nat} (k v : String)
    (h : Balanced t false n) :
    ∃ t', t.insert k v = some t' ∧ ∃ m, Balanced t' false m :=
  insertGo_ok k v t false n [] h Spine.nil
    (fun hcc => absurd hcc (by simp)) rfl

/-- The root is black (`NIL` counts as black). -/
def rootBlackB : RBTree → Bool
  | .nil => true
  | .node c _ _ _ _ => !c

/-- No red node has a red child, anywhere in the tree. -/
def noRedRedB : RBTree → Bool
  | .nil => true
  | .node c l _ _ r =>
    (!(c && (isRed l || isRed r))) && noRedRedB l && noRedRedB r

/-- The number of black nodes on every root-to-`NIL` path, when all such
paths agree; `none` otherwise. -/
def blackHeight? : RBTree → Option Nat
  | .nil => some 0
  | .node c l _ _ r =>
    match blackHeight? l, blackHeight? r with
    | some a, some b => if a = b then some (a + (if c then 0 else 1)) else none
    | _, _ => none

/-- `Balanced` entails the three boolean red-black properties. -/
theorem balanced_props {t : RBTree} {c : Bool} {n : Nat} (h : Balanced t c n) :
    noRedRedB t = true ∧ blackHeight? t = some n ∧
      (c = false → rootBlackB t = true) := by
  induction h with
  | nil => exact ⟨rfl, rfl, fun _ => rfl⟩
  | red hl hr ihl ihr =>
    refine ⟨?_, ?_, fun hcc => absurd hcc (by simp)⟩
    · simp [noRedRedB, ihl.1, ihr.1, balanced_isRed hl, balanced_isRed hr]
    · simp [blackHeight?, ihl.2.1, ihr.2.1]
  | black hl hr ihl ihr =>
    refine ⟨?_, ?_, fun _ => rfl⟩
    · simp [noRedRedB, ihl.1, ihr.1]
    · simp [blackHeight?, ihl.2.1, ihr.2.1]

/-- Run `insert` for each pair in order, starting from the given tree
(`none` if any insert crashed). -/
def insertSeq : List (String × String) → RBTree → Option RBTree
  | [], t => some t
  | p :: ps, t =>
    match t.insert p.1 p.2 with
    | none => none
    | some t' => insertSeq ps t'

/-- C2: starting from the empty tree, every sequence of `insert` calls (any
keys, any order, duplicates allowed) succeeds, and the resulting red-black
tree has a black root, no red node with a red child, and the same number
of black nodes on every path from the root to the `NIL` sentinel. -/
theorem claim2_red_black_invariants (ps : List (String × String)) :
    ∃ t, insertSeq ps .nil = some t ∧
      rootBlackB t = true ∧ noRedRedB t = true ∧ (blackHeight? t).isSome := by
  have main : ∀ (qs : List (String × String)) (t : RBTree) (n : Nat),
      Balanced t false n →
      ∃ t' m, insertSeq qs t = some t' ∧ Balanced t' false m := by
    intro qs
    induction qs with
    | nil => intro t n h; exact ⟨t, n, rfl, h⟩
    | cons p rest ih =>
      intro t n h
      obtain ⟨t1, heq, m, hb⟩ := insert_balanced p.1 p.2 h
      obtain ⟨t', m', heq', hb'⟩ := ih t1 m hb
      refine ⟨t', m', ?_, hb'⟩
      simp only [insertSeq, heq]
      exact heq'
  obtain ⟨t, m, heq, hb⟩ := main ps .nil 0 Balanced.nil
  obtain ⟨hnr, hbh, hrb⟩ := balanced_props hb
  exact ⟨t, heq, hrb rfl, hnr, by rw [hbh]; rfl⟩

/-! ### Inorder semantics of the tree (claims C5, C8, C9)

Rotations and recolorings do not change the inorder traversal, so the
effect of `insert` on a key-sorted tree is exactly a sorted-list upsert. -/

/-- Inorder contribution of one ancestor step around a middle segment. -/
def stepInorder (st : PathStep) (mid : List (String × String)) :
    List (String × String) :=
  match st.dir with
  | .left => mid ++ (st.key, st.value) :: st.sibling.inorder
  | .right => st.sibling.inorder ++ (st.key, st.value) :: mid

/-- Inorder traversal of a zipped tree, as a function of the focused
segment. -/
def pathInorder : List PathStep → List (String × String) →
    List (String × String)
  | [], mid => mid
  | st :: rest, mid => pathInorder rest (stepInorder st mid)

theorem zip_inorder (p : List PathStep) (x : RBTree) :
    (zipPath p x).inorder = pathInorder p x.inorder := by
  induction p generalizing x with
  | nil => rfl
  | cons st rest ih =>
    obtain ⟨d, c, k2, v2, sib⟩ := st
    cases d with
    | left => exact ih _
    | right => exact ih _

theorem blackenRoot_inorder (t : RBTree) :
    (blackenRoot t).inorder = t.inorder := by
  cases t <;> rfl

/-- The rebalancing loop never changes the inorder traversal: the result is
the inorder of the zipped original. -/
theorem fixInsert_inorder_aux :
    ∀ (L : Nat) (p : List PathStep), p.length ≤ L →
      ∀ (kt t' : RBTree),
      fixInsert kt p = some t' → t'.inorder = pathInorder p kt.inorder := by
  intro L
  induction L with
  | zero =>
    intro p hp kt t' h
    have hnil : p = [] := List.eq_nil_of_length_eq_zero (Nat.le_zero.mp hp)
    subst hnil
    simp only [fixInsert, Option.some.injEq] at h
    rw [← h, blackenRoot_inorder]
    rfl
  | succ L ih =>
    intro p hp kt t' h
    cases p with
    | nil =>
      simp only [fixInsert, Option.some.injEq] at h
      rw [← h, blackenRoot_inorder]
      rfl
    | cons pst rest =>
      cases rest with
      | nil =>
        simp only [fixInsert] at h
        split at h
        · simp only [Option.some.injEq] at h
          rw [← h, blackenRoot_inorder, zip_inorder]
        · exact absurd h (by simp)
      | cons g rest' =>
        simp only [fixInsert] at h
        split at h
        · simp only [Option.some.injEq] at h
          rw [← h, blackenRoot_inorder, zip_inorder]
        · split at h
          · -- uncle red: the recolored focus has the same inorder as two
            -- plugged steps
            have hst : (uncleRedStep kt pst g).inorder =
                stepInorder g (stepInorder pst kt.inorder) := by
              obtain ⟨pd, pc, pk, pv, psib⟩ := pst
              obtain ⟨gd, gc, gk, gv, gsib⟩ := g
              cases pd <;> cases gd <;>
                simp [uncleRedStep, stepInorder, RBTree.inorder,
                  blackenRoot_inorder]
            have hlen : rest'.length ≤ L := by
              simp only [List.length_cons] at hp
              omega
            rw [ih rest' hlen _ t' h, hst]
            rfl
          · -- uncle black: the rotated subtree has the same inorder as two
            -- plugged steps
            cases hrot : rotateStep kt pst g with
            | none => rw [hrot] at h; exact absurd h (by simp)
            | some s =>
              rw [hrot] at h
              simp only [Option.some.injEq] at h
              have hst : s.inorder =
                  stepInorder g (stepInorder pst kt.inorder) := by
                obtain ⟨pd, pc, pk, pv, psib⟩ := pst
                obtain ⟨gd, gc, gk, gv, gsib⟩ := g
                cases pd <;> cases gd <;> cases kt <;>
                  simp only [rotateStep] at hrot <;>
                  first
                    | (simp only [Option.some.injEq] at hrot
                       rw [← hrot]
                       simp [stepInorder, RBTree.inorder])
                    | exact absurd hrot (by simp)
              rw [← h, blackenRoot_inorder, zip_inorder, hst]
              rfl

/-- Sorted-association-list upsert: insert `(k, v)` at its sorted position,
or overwrite the value of an existing entry with key `k`. -/
def listUpsert (k v : String) : List (String × String) → List (String × String)
  | [] => [(k, v)]
  | (k', v') :: rest =>
    if k < k' then (k, v) :: (k', v') :: rest
    else if k = k' then (k', v) :: rest
    else (k', v') :: listUpsert k v rest

theorem listUpsert_append_lt {k key' : String} (v val' : String)
    (A B : List (String × String)) (hk : k < key') :
    listUpsert k v (A ++ (key', val') :: B) =
      listUpsert k v A ++ (key', val') :: B := by
  induction A with
  | nil => simp [listUpsert, hk]
  | cons a A' ih =>
    obtain ⟨ak, av⟩ := a
    by_cases h1 : k < ak
    · simp [listUpsert, h1]
    · by_cases h2 : k = ak
      · simp [listUpsert, h1, h2]
      · simp [listUpsert, h1, h2, ih]

theorem listUpsert_append_gt {k key' : String} (v val' : String)
    (A B : List (String × String)) (hk : key' < k)
    (hA : ∀ p ∈ A, p.1 < k) :
    listUpsert k v (A ++ (key', val') :: B) =
      A ++ (key', val') :: listUpsert k v B := by
  induction A with
  | nil => simp [listUpsert, asymm hk, (ne_of_gt hk : k ≠ key')]
  | cons a A' ih =>
    obtain ⟨ak, av⟩ := a
    have hak : ak < k := hA (ak, av) (by simp)
    simp only [List.cons_append, listUpsert, if_neg (asymm hak),
      if_neg (ne_of_gt hak : k ≠ ak), List.cons.injEq, true_and]
    exact ih (fun p hp => hA p (by simp [hp]))

theorem listUpsert_append_eq {k : String} (v val' : String)
    (A B : List (String × String)) (hA : ∀ p ∈ A, p.1 < k) :
    listUpsert k v (A ++ (k, val') :: B) = A ++ (k, v) :: B := by
  induction A with
  | nil => simp [listUpsert]
  | cons a A' ih =>
    obtain ⟨ak, av⟩ := a
    have hak : ak < k := hA (ak, av) (by simp)
    simp only [List.cons_append, listUpsert, if_neg (asymm hak),
      if_neg (ne_of_gt hak : k ≠ ak), List.cons.injEq, true_and]
    exact ih (fun p hp => hA p (by simp [hp]))

/-- Keys strictly increase along the inorder traversal. -/
def SortedPairs (l : List (String × String)) : Prop :=
  List.Pairwise (fun p q => p.1 < q.1) l

instance (l : List (String × String)) : Decidable (SortedPairs l) := by
  unfold SortedPairs
  infer_instance

/-- On a key-sorted tree, `insert` edits the inorder traversal by a sorted
upsert — rotations and recolorings move structure, never the sequence. -/
theorem insertGo_inorder (k v : String) :
    ∀ (t : RBTree) (path : List PathStep) (t' : RBTree),
      SortedPairs t.inorder → insertGo k v t path = some t' →
      t'.inorder = pathInorder path (listUpsert k v t.inorder) := by
  intro t
  induction t with
  | nil =>
    intro path t' _ h
    cases path with
    | nil =>
      simp only [insertGo, Option.some.injEq] at h
      rw [← h]
      rfl
    | cons st rest =>
      cases rest with
      | nil =>
        simp only [insertGo, Option.some.injEq] at h
        rw [← h, zip_inorder]
        rfl
      | cons st2 rest2 =>
        have := fixInsert_inorder_aux (st :: st2 :: rest2).length
          (st :: st2 :: rest2) (Nat.le_refl _) (.node true .nil k v .nil) t' h
        rw [this]
        rfl
  | node c l key' val' r ihl ihr =>
    intro path t' hsort h
    have hsl : SortedPairs l.inorder := by
      refine List.Pairwise.sublist ?_ hsort
      simp only [RBTree.inorder]
      exact List.sublist_append_left _ _
    have hsr : SortedPairs r.inorder := by
      refine List.Pairwise.sublist ?_ hsort
      simp only [RBTree.inorder]
      exact (List.sublist_cons_self _ _).trans (List.sublist_append_right _ _)
    have hAlt : ∀ p ∈ l.inorder, p.1 < key' := by
      intro p hp
      simp only [RBTree.inorder, SortedPairs, List.pairwise_append] at hsort
      exact hsort.2.2 p hp (key', val') (by simp)
    rcases lt_trichotomy k key' with hlt | heqk | hgt
    · simp only [insertGo, if_pos hlt] at h
      have := ihl (⟨.left, c, key', val', r⟩ :: path) t' hsl h
      rw [this]
      simp only [RBTree.inorder]
      rw [listUpsert_append_lt v val' _ _ hlt]
      rfl
    · subst heqk
      simp only [insertGo, if_neg (lt_irrefl k), Option.some.injEq] at h
      rw [← h, zip_inorder]
      simp only [RBTree.inorder]
      rw [listUpsert_append_eq v val' _ _ hAlt]
    · simp only [insertGo, if_neg (asymm hgt), if_pos hgt] at h
      have := ihr (⟨.right, c, key', val', l⟩ :: path) t' hsr h
      rw [this]
      simp only [RBTree.inorder]
      rw [listUpsert_append_gt v val' _ _ hgt
        (fun p hp => lt_trans (hAlt p hp) hgt)]
      rfl

/-- `insert` on a key-sorted tree rewrites the inorder traversal by a
sorted upsert. -/
theorem insert_inorder {t t' : RBTree} (k v : String)
    (hsort : SortedPairs t.inorder) (h : t.insert k v = some t') :
    t'.inorder = listUpsert k v t.inorder :=
  insertGo_inorder k v t [] t' hsort h

theorem mem_listUpsert {k v : String} {l : List (String × String)}
    {p : String × String} (hp : p ∈ listUpsert k v l) :
    p = (k, v) ∨ p ∈ l := by
  induction l with
  | nil => simpa [listUpsert] using hp
  | cons a rest ih =>
    obtain ⟨k', v'⟩ := a
    simp only [listUpsert] at hp
    split at hp
    · rcases List.mem_cons.mp hp with h | h
      · exact Or.inl h
      · exact Or.inr h
    · split at hp
      next hkk =>
        subst hkk
        rcases List.mem_cons.mp hp with h | h
        · exact Or.inl (by rw [h])
        · exact Or.inr (List.mem_cons_of_mem _ h)
      next hkk =>
        rcases List.mem_cons.mp hp with h | h
        · exact Or.inr (by rw [h]; exact List.mem_cons_self _ _)
        · rcases ih h with h' | h'
          · exact Or.inl h'
          · exact Or.inr (List.mem_cons_of_mem _ h')

theorem sorted_listUpsert (k v : String) {l : List (String × String)}
    (h : SortedPairs l) : SortedPairs (listUpsert k v l) := by
  induction l with
  | nil => simp [listUpsert, SortedPairs]
  | cons a rest ih =>
    obtain ⟨k', v'⟩ := a
    rw [SortedPairs, List.pairwise_cons] at h
    obtain ⟨h1, h2⟩ := h
    by_cases hc1 : k < k'
    · simp only [listUpsert, if_pos hc1]
      rw [SortedPairs, List.pairwise_cons]
      refine ⟨?_, List.Pairwise.cons h1 h2⟩
      intro q hq
      rcases List.mem_cons.mp hq with h | h
      · rw [h]; exact hc1
      · exact lt_trans hc1 (h1 q h)
    · by_cases hc2 : k = k'
      · subst hc2
        have hlist : listUpsert k v ((k, v') :: rest) = (k, v) :: rest := by
          simp [listUpsert, hc1]
        rw [hlist, SortedPairs, List.pairwise_cons]
        exact ⟨h1, h2⟩
      · have hgt : k' < k := by
          rcases lt_trichotomy k k' with h | h | h
          · exact absurd h hc1
          · exact absurd h hc2
          · exact h
        simp only [listUpsert, if_neg hc1, if_neg hc2]
        rw [SortedPairs, List.pairwise_cons]
        refine ⟨?_, ih h2⟩
        intro q hq
        rcases mem_listUpsert hq with h | h
        · rw [h]; exact hgt
        · exact h1 q h

/-- First-match association lookup, the list-level meaning of `search`. -/
def findA (k : String) : List (String × String) → Option String
  | [] => none
  | (k', v') :: rest => if k = k' then some v' else findA k rest

theorem findA_append (k : String) (A B : List (String × String)) :
    findA k (A ++ B) =
      match findA k A with
      | some w => some w
      | none => findA k B := by
  induction A with
  | nil => rfl
  | cons a A' ih =>
    obtain ⟨k', v'⟩ := a
    by_cases h : k = k' <;> simp [findA, h, ih]

theorem findA_eq_none {k : String} {B : List (String × String)}
    (h : ∀ p ∈ B, p.1 ≠ k) : findA k B = none := by
  induction B with
  | nil => rfl
  | cons b B' ih =>
    obtain ⟨k', v'⟩ := b
    have hk : k ≠ k' := fun he => h (k', v') (by simp) (by simp [he])
    simp only [findA, if_neg hk]
    exact ih (fun p hp => h p (by simp [hp]))

/-- On a key-sorted tree, `search` is first-match lookup in the inorder
traversal. -/
theorem search_eq_findA :
    ∀ (t : RBTree), SortedPairs t.inorder →
      ∀ k, t.search k = findA k t.inorder := by
  intro t
  induction t with
  | nil => intro _ k; rfl
  | node c l key' val' r ihl ihr =>
    intro hsort k
    have hsl : SortedPairs l.inorder := by
      refine List.Pairwise.sublist ?_ hsort
      simp only [RBTree.inorder]
      exact List.sublist_append_left _ _
    have hsr : SortedPairs r.inorder := by
      refine List.Pairwise.sublist ?_ hsort
      simp only [RBTree.inorder]
      exact (List.sublist_cons_self _ _).trans (List.sublist_append_right _ _)
    have hAlt : ∀ p ∈ l.inorder, p.1 < key' := by
      intro p hp
      simp only [RBTree.inorder, SortedPairs, List.pairwise_append] at hsort
      exact hsort.2.2 p hp (key', val') (by simp)
    have hBgt : ∀ p ∈ r.inorder, key' < p.1 := by
      simp only [RBTree.inorder, SortedPairs, List.pairwise_append,
        List.pairwise_cons] at hsort
      exact fun p hp => hsort.2.1.1 p hp
    simp only [RBTree.inorder, findA_append]
    by_cases he : k = key'
    · subst he
      have hA : findA k l.inorder = none :=
        findA_eq_none (fun p hp => ne_of_lt (hAlt p hp))
      simp [RBTree.search, findA, hA]
    · by_cases hlt : k < key'
      · simp only [RBTree.search, if_neg he, if_pos hlt, ihl hsl k]
        cases hfa : findA k l.inorder with
        | some w => simp [hfa]
        | none =>
          have hB : findA k r.inorder = none :=
            findA_eq_none (fun p hp => ne_of_gt (lt_trans hlt (hBgt p hp)))
          simp [hfa, findA, he, hB]
      · have hgt : key' < k := by
          rcases lt_trichotomy k key' with h | h | h
          · exact absurd h hlt
          · exact absurd h he
          · exact h
        have hA : findA k l.inorder = none :=
          findA_eq_none (fun p hp => ne_of_lt (lt_trans (hAlt p hp) hgt))
        simp [RBTree.search, he, hlt, hA, findA, ihr hsr k]

theorem findA_listUpsert_self (k v : String) (l : List (String × String)) :
    findA k (listUpsert k v l) = some v := by
  induction l with
  | nil => simp [listUpsert, findA]
  | cons a rest ih =>
    obtain ⟨k', v'⟩ := a
    by_cases h1 : k < k'
    · simp [listUpsert, findA, h1]
    · by_cases h2 : k = k'
      · subst h2
        simp [listUpsert, findA, h1]
      · simp [listUpsert, findA, h1, h2, ih]

theorem findA_listUpsert_other (k v k' : String) (hne : k' ≠ k)
    (l : List (String × String)) :
    findA k' (listUpsert k v l) = findA k' l := by
  induction l with
  | nil => simp [listUpsert, findA, hne]
  | cons a rest ih =>
    obtain ⟨ak, av⟩ := a
    by_cases h1 : k < ak
    · simp [listUpsert, findA, h1, hne]
    · by_cases h2 : k = ak
      · subst h2
        have : k' ≠ k := hne
        simp [listUpsert, findA, h1, this]
      · simp [listUpsert, findA, h1, h2, ih]

/-- The keys of the tree, in ascending traversal order. -/
def keysOf (t : RBTree) : List String := t.inorder.map (·.1)

theorem count_keys_listUpsert (k v : String) {l : List (String × String)}
    (h : SortedPairs l) :
    ((listUpsert k v l).map (·.1)).count k = 1 := by
  induction l with
  | nil => simp [listUpsert]
  | cons a rest ih =>
    obtain ⟨k', v'⟩ := a
    rw [SortedPairs, List.pairwise_cons] at h
    obtain ⟨h1, h2⟩ := h
    by_cases hc1 : k < k'
    · have hz : (((k', v') :: rest).map (·.1)).count k = 0 := by
        rw [List.count_eq_zero]
        intro hm
        rcases List.mem_map.mp hm with ⟨p, hp, hpk⟩
        rcases List.mem_cons.mp hp with he | hm2
        · rw [he] at hpk; exact absurd hpk.symm (ne_of_lt hc1)
        · exact absurd hpk.symm (ne_of_lt (lt_trans hc1 (h1 p hm2)))
      have hlist : (listUpsert k v ((k', v') :: rest)).map (·.1) =
          k :: ((k', v') :: rest).map (·.1) := by
        simp [listUpsert, hc1]
      rw [hlist, List.count_cons_self, hz]
    · by_cases hc2 : k = k'
      · subst hc2
        have hz : (rest.map (·.1)).count k = 0 := by
          rw [List.count_eq_zero]
          intro hm
          rcases List.mem_map.mp hm with ⟨p, hp, hpk⟩
          exact absurd hpk.symm (ne_of_lt (h1 p hp))
        have hlist : (listUpsert k v ((k, v') :: rest)).map (·.1) =
            k :: rest.map (·.1) := by
          simp [listUpsert, hc1]
        rw [hlist, List.count_cons_self, hz]
      · have hgt : k' < k := by
          rcases lt_trichotomy k k' with h | h | h
          · exact absurd h hc1
          · exact absurd h hc2
          · exact h
        have hlist : (listUpsert k v ((k', v') :: rest)).map (·.1) =
            k' :: (listUpsert k v rest).map (·.1) := by
          simp [listUpsert, hc1, hc2]
        rw [hlist, List.count_cons_of_ne (Ne.symm (ne_of_lt hgt)), ih h2]

/-! ### Frame property of inserting an existing key (claim C9) -/

/-- In-place value overwrite along the search path: the tree `insert`
builds when the key already exists. -/
def updVal (k v : String) : RBTree → RBTree
  | .nil => .nil
  | .node c l key' val' r =>
    if k = key' then .node c l key' v r
    else if k < key' then .node c (updVal k v l) key' val' r
    else .node c l key' val' (updVal k v r)

/-- Erase all values: what remains is the tree's shape, colors and keys. -/
def blankVals : RBTree → RBTree
  | .nil => .nil
  | .node c l k2 _ r => .node c (blankVals l) k2 "" (blankVals r)

theorem blankVals_updVal (k v : String) :
    ∀ t : RBTree, blankVals (updVal k v t) = blankVals t := by
  intro t
  induction t with
  | nil => rfl
  | node c l key' val' r ihl ihr =>
    by_cases h1 : k = key'
    · simp [updVal, h1, blankVals]
    · by_cases h2 : k < key' <;> simp [updVal, h1, h2, blankVals, ihl, ihr]

theorem search_updVal_self (k v : String) :
    ∀ t : RBTree, t.search k ≠ none → (updVal k v t).search k = some v := by
  intro t
  induction t with
  | nil => intro h; exact absurd rfl h
  | node c l key' val' r ihl ihr =>
    intro hfound
    by_cases h1 : k = key'
    · simp [updVal, h1, RBTree.search]
    · by_cases h2 : k < key'
      · simp only [RBTree.search, if_neg h1, if_pos h2] at hfound
        simp [updVal, h1, h2, RBTree.search, ihl hfound]
      · simp only [RBTree.search, if_neg h1, if_neg h2] at hfound
        simp [updVal, h1, h2, RBTree.search, ihr hfound]

theorem search_updVal_other (k v k' : String) (hne : k' ≠ k) :
    ∀ t : RBTree, (updVal k v t).search k' = t.search k' := by
  intro t
  induction t with
  | nil => rfl
  | node c l key' val' r ihl ihr =>
    by_cases h1 : k = key'
    · subst h1
      simp [updVal, RBTree.search, hne, ihl, ihr]
    · by_cases h2 : k < key' <;>
        simp [updVal, h1, h2, RBTree.search, ihl, ihr]

/-- When the key is already present (findable by `search`), the descent of
`insert` ends in the value-overwrite branch and the result is exactly the
shape-preserving `updVal`. -/
theorem insertGo_found (k v : String) :
    ∀ (t : RBTree) (path : List PathStep), t.search k ≠ none →
      insertGo k v t path = some (zipPath path (updVal k v t)) := by
  intro t
  induction t with
  | nil => intro path h; exact absurd rfl h
  | node c l key' val' r ihl ihr =>
    intro path hfound
    rcases lt_trichotomy k key' with hlt | heqk | hgt
    · have hne : k ≠ key' := ne_of_lt hlt
      simp only [RBTree.search, if_neg hne, if_pos hlt] at hfound
      simp only [insertGo, if_pos hlt, updVal, if_neg hne, if_pos hlt]
      rw [ihl _ hfound]
      rfl
    · subst heqk
      simp [insertGo, if_neg (lt_irrefl k), updVal]
    · have hne : k ≠ key' := ne_of_gt hgt
      have hnlt : ¬ k < key' := asymm hgt
      simp only [RBTree.search, if_neg hne, if_neg hnlt] at hfound
      simp only [insertGo, if_neg hnlt, if_pos hgt, updVal, if_neg hne,
        if_neg hnlt]
      rw [ihr _ hfound]
      rfl

theorem findA_isSome_of_mem {k : String} :
    ∀ {l : List (String × String)}, k ∈ l.map (·.1) → findA k l ≠ none := by
  intro l
  induction l with
  | nil => intro h; simp at h
  | cons a rest ih =>
    obtain ⟨k', v'⟩ := a
    intro hm
    by_cases he : k = k'
    · simp [findA, he]
    · simp only [List.map_cons, List.mem_cons] at hm
      rcases hm with h | h
      · exact absurd h he
      · simp only [findA, if_neg he]
        exact ih h

/-- C9: inserting a key that already exists in a key-sorted tree changes
only that node's value: the insert returns `updVal` — same shape, same
colors, same keys, all other values unchanged — with no rebalancing, the
key now maps to the new value, and every other lookup is untouched. -/
theorem claim9_existing_key_overwrites_in_place (t : RBTree) (k v : String)
    (hsort : SortedPairs t.inorder) (hmem : k ∈ keysOf t) :
    t.insert k v = some (updVal k v t) ∧
    blankVals (updVal k v t) = blankVals t ∧
    (updVal k v t).search k = some v ∧
    ∀ k', k' ≠ k → (updVal k v t).search k' = t.search k' := by
  have hfound : t.search k ≠ none := by
    rw [search_eq_findA t hsort k]
    exact findA_isSome_of_mem hmem
  exact ⟨insertGo_found k v t [] hfound, blankVals_updVal k v t,
    search_updVal_self k v t hfound,
    fun k' hk' => search_updVal_other k v k' hk' t⟩

/-- C9 witness: a concrete one-node sorted tree, overwriting key `"b"`. -/
theorem claim9_existing_key_overwrites_in_place_witness :
    (RBTree.node false .nil "b" "2" .nil).insert "b" "9" =
      some (updVal "b" "9" (RBTree.node false .nil "b" "2" .nil)) :=
  (claim9_existing_key_overwrites_in_place
    (RBTree.node false .nil "b" "2" .nil) "b" "9"
    (by decide) (by decide)).1

/-! ### Claims C8 and C5 -/

/-- A sequence of `put`s always succeeds from a balanced tree, and its
effect on the cuckoo tables is exactly the corresponding `cuckoo_insert`
run. -/
theorem runPuts_tables (H : Hashes) :
    ∀ (ps : List (String × String)) (s : StoreState) (n : Nat),
      Balanced s.tree false n →
      ∃ s', runOps H s (ps.map (fun p => Op.put p.1 p.2)) = some s' ∧
        s'.t1 = (cuckooRun H ps (s.t1, s.t2)).1 ∧
        s'.t2 = (cuckooRun H ps (s.t1, s.t2)).2 := by
  intro ps
  induction ps with
  | nil => intro s n _; exact ⟨s, rfl, rfl, rfl⟩
  | cons p rest ih =>
    intro s n hbal
    obtain ⟨tr, heq, m, hb⟩ := insert_balanced p.1 p.2 hbal
    obtain ⟨s', hrun, h1, h2⟩ := ih
      { urlMap := fun k' => if k' = p.1 then some p.2 else s.urlMap k'
        t1 := (cuckoo_insert H p.1 p.2 s.t1 s.t2).2.1
        t2 := (cuckoo_insert H p.1 p.2 s.t1 s.t2).2.2
        tree := tr
        counter := s.counter
        heap := s.heap } m hb
    refine ⟨s', ?_, h1, h2⟩
    simp only [List.map_cons, runOps, runOp, storePut, heq]
    exact hrun

/-- C8, counterexample: running the five `put`s below from the empty store
(with digests under which `"k"` and `"j"` collide in table 1) ends with
`put("k","v1")` then `put("k","v2")`, after which key `"k"` still occupies
two cuckoo slots — there is no single logical entry for `k` in the cuckoo
tables. -/
theorem claim8_counterexample :
    (runOps Hdup emptyState
      [.put "k" "u1", .put "j" "uj", .put "k" "v0",
       .put "k" "v1", .put "k" "v2"]).map
        (fun s => (slotKeys s.t1 ++ slotKeys s.t2).count "k") = some 2 := by
  obtain ⟨s', hrun, h1, h2⟩ := runPuts_tables Hdup
    [("k", "u1"), ("j", "uj"), ("k", "v0"), ("k", "v1"), ("k", "v2")]
    emptyState 0 Balanced.nil
  have hops : ([("k", "u1"), ("j", "uj"), ("k", "v0"), ("k", "v1"),
      ("k", "v2")] : List (String × String)).map (fun p => Op.put p.1 p.2) =
      [.put "k" "u1", .put "j" "uj", .put "k" "v0",
       .put "k" "v1", .put "k" "v2"] := rfl
  rw [hops] at hrun
  rw [hrun, Option.map_some', h1, h2]
  have : emptyState.t1 = (List.replicate CUCKOO_SIZE none : List Slot) := rfl
  decide

/-- C8 (amended): `put(k, v1)` then `put(k, v2)` leaves exactly one node
for `k` in the red-black tree, holding `v2`; the cuckoo tables are not
covered by this guarantee — the re-insert overwrites the table-1 copy but
a stale duplicate can persist in table 2 (see the counterexample). -/
theorem claim8_reinsert_single_tree_entry (t : RBTree) (k v1 v2 : String)
    {n : Nat} (hbal : Balanced t false n) (hsort : SortedPairs t.inorder) :
    ∃ t1 t2, t.insert k v1 = some t1 ∧ t1.insert k v2 = some t2 ∧
      (keysOf t2).count k = 1 ∧ t2.search k = some v2 := by
  obtain ⟨t1, heq1, m1, hb1⟩ := insert_balanced k v1 hbal
  have hin1 : t1.inorder = listUpsert k v1 t.inorder :=
    insert_inorder k v1 hsort heq1
  have hs1 : SortedPairs t1.inorder := by
    rw [hin1]
    exact sorted_listUpsert k v1 hsort
  obtain ⟨t2, heq2, m2, hb2⟩ := insert_balanced k v2 hb1
  have hin2 : t2.inorder = listUpsert k v2 t1.inorder :=
    insert_inorder k v2 hs1 heq2
  have hs2 : SortedPairs t2.inorder := by
    rw [hin2]
    exact sorted_listUpsert k v2 hs1
  refine ⟨t1, t2, heq1, heq2, ?_, ?_⟩
  · rw [keysOf, hin2]
    exact count_keys_listUpsert k v2 hs1
  · rw [search_eq_findA t2 hs2 k, hin2]
    exact findA_listUpsert_self k v2 t1.inorder

/-- C8 witness: the two re-inserts on a concrete one-node tree. -/
theorem claim8_reinsert_single_tree_entry_witness :
    ∃ t1 t2, (RBTree.node false .nil "a" "0" .nil).insert "a" "1" = some t1 ∧
      t1.insert "a" "2" = some t2 ∧
      (keysOf t2).count "a" = 1 ∧ t2.search "a" = some "2" :=
  claim8_reinsert_single_tree_entry (RBTree.node false .nil "a" "0" .nil)
    "a" "1" "2" (Balanced.black Balanced.nil Balanced.nil) (by decide)

/-- C5: if the cuckoo insert reports failure during `put(k, v)` (for truthy
`v`, on a well-formed tree), the put still succeeds — no error reaches the
caller — and a subsequent `get(k)` returns `v`; moreover the authoritative
red-black tree itself holds `v` for `k` (its entry is not corrupted), so
the tree alone could serve the lookup. -/
theorem claim5_cuckoo_failure_absorbed (H : Hashes) (s : StoreState)
    (k v : String) (hv : v ≠ "") {n : Nat}
    (hbal : Balanced s.tree false n) (hsort : SortedPairs s.tree.inorder)
    (hfail : (cuckoo_insert H k v s.t1 s.t2).1 = false) :
    ∃ s', storePut H s k v = some s' ∧ (storeGet H s' k).1 = some v ∧
      s'.tree.search k = some v := by
  obtain ⟨tr, heq, m, hb⟩ := insert_balanced k v hbal
  have hin : tr.inorder = listUpsert k v s.tree.inorder :=
    insert_inorder k v hsort heq
  have hs' : SortedPairs tr.inorder := by
    rw [hin]
    exact sorted_listUpsert k v hsort
  have hsearch : tr.search k = some v := by
    rw [search_eq_findA tr hs' k, hin]
    exact findA_listUpsert_self k v s.tree.inorder
  refine ⟨{ urlMap := fun k' => if k' = k then some v else s.urlMap k'
            t1 := (cuckoo_insert H k v s.t1 s.t2).2.1
            t2 := (cuckoo_insert H k v s.t1 s.t2).2.2
            tree := tr
            counter := s.counter
            heap := s.heap }, ?_, ?_, ?_⟩
  · simp only [storePut, heq]
  · exact storeGet_urlMap_hit H _ k v (by simp) hv
  · exact hsearch

/-- C5 witness: the concrete exhausted cuckoo chain (all hashes 0, both
slot-0 entries occupied) during a put on an empty tree. -/
theorem claim5_cuckoo_failure_absorbed_witness :
    ∃ s', storePut H0 { emptyState with t1 := wt1, t2 := wt2 } "c" "z" =
        some s' ∧
      (storeGet H0 s' "c").1 = some "z" ∧ s'.tree.search "c" = some "z" :=
  claim5_cuckoo_failure_absorbed H0 { emptyState with t1 := wt1, t2 := wt2 }
    "c" "z" (by decide) Balanced.nil (by decide) (by decide)

/-! ### Claim C7: the heap-backed top-K query

`most_frequent` is maintained by `heapq` operations; verifying the top-K
query means verifying the translated `heapq` code.  Heap slots are indexed
breadth-first: slot `i`'s children are `2i+1` and `2i+2`. -/

theorem pyLt_irrefl (a : HeapEntry) : ¬ pyLt a a := by
  simp [pyLt]

theorem pyLt_trans {a b c : HeapEntry} (h1 : pyLt a b) (h2 : pyLt b c) :
    pyLt a c := by
  unfold pyLt at *
  rcases h1 with h1 | ⟨h1, h1'⟩ <;> rcases h2 with h2 | ⟨h2, h2'⟩
  · exact Or.inl (lt_trans h1 h2)
  · exact Or.inl (h2 ▸ h1)
  · exact Or.inl (h1 ▸ h2)
  · exact Or.inr ⟨h1.trans h2, lt_trans h1' h2'⟩

theorem pyLt_total (a b : HeapEntry) : pyLt a b ∨ a = b ∨ pyLt b a := by
  rcases lt_trichotomy a.1 b.1 with h | h | h
  · exact Or.inl (Or.inl h)
  · rcases lt_trichotomy a.2 b.2 with h2 | h2 | h2
    · exact Or.inl (Or.inr ⟨h, h2⟩)
    · exact Or.inr (Or.inl (Prod.ext h h2))
    · exact Or.inr (Or.inr (Or.inr ⟨h.symm, h2⟩))
  · exact Or.inr (Or.inr (Or.inl h))

theorem pyLt_asymm {a b : HeapEntry} (h : pyLt a b) : ¬ pyLt b a :=
  fun h' => pyLt_irrefl a (pyLt_trans h h')

/-- Transitivity of the reflexive order `¬ pyLt · ·` ("`a ≤ b ≤ c`"). -/
theorem pyLe_trans {a b c : HeapEntry} (h1 : ¬ pyLt b a) (h2 : ¬ pyLt c b) :
    ¬ pyLt c a := by
  intro hca
  rcases pyLt_total b c with h | h | h
  · exact h1 (pyLt_trans h hca)
  · exact h1 (h ▸ hca)
  · exact h2 h

theorem pyLe_fst {q m : HeapEntry} (h : ¬ pyLt q m) : m.1 ≤ q.1 :=
  le_of_not_lt (fun hlt => h (Or.inl hlt))

/-- `Desc r j`: heap slot `j` lies in the subtree rooted at slot `r`. -/
inductive Desc : Nat → Nat → Prop where
  | refl (i : Nat) : Desc i i
  | left (i : Nat) {k : Nat} : Desc (2 * i + 1) k → Desc i k
  | right (i : Nat) {k : Nat} : Desc (2 * i + 2) k → Desc i k

theorem Desc.le : ∀ {i j : Nat}, Desc i j → i ≤ j := by
  intro i j h
  induction h with
  | refl => exact Nat.le_refl _
  | left i _ ih => omega
  | right i _ ih => omega

theorem Desc.trans : ∀ {i j k : Nat}, Desc i j → Desc j k → Desc i k := by
  intro i j k h1 h2
  induction h1 with
  | refl => exact h2
  | left i' _ ih => exact .left i' (ih h2)
  | right i' _ ih => exact .right i' (ih h2)

theorem Desc.child_left (i : Nat) : Desc i (2 * i + 1) := .left i (.refl _)

theorem Desc.child_right (i : Nat) : Desc i (2 * i + 2) := .right i (.refl _)

theorem parentIdx_lt {i : Nat} (h : 0 < i) : parentIdx i < i := by
  unfold parentIdx; omega

theorem parentIdx_le (i : Nat) : parentIdx i ≤ i := by
  unfold parentIdx; omega

/-- A slot with parent `p` is one of `p`'s two children. -/
theorem parentIdx_child {p c : Nat} (h : parentIdx c = p) (hc : 0 < c) :
    c = 2 * p + 1 ∨ c = 2 * p + 2 := by
  unfold parentIdx at h; omega

theorem child_ge {p c : Nat} (h : parentIdx c = p) (hc : 0 < c) :
    2 * p + 1 ≤ c := by
  unfold parentIdx at h; omega

theorem Desc.parent (i : Nat) : Desc (parentIdx i) i := by
  rcases Nat.eq_zero_or_pos i with h | h
  · subst h; exact .refl 0
  · unfold parentIdx
    generalize hp : (i - 1) / 2 = p
    have h2 : i = 2 * p + 1 ∨ i = 2 * p + 2 := by omega
    rcases h2 with h2 | h2 <;> subst h2
    · exact Desc.child_left p
    · exact Desc.child_right p

theorem Desc.root (i : Nat) : Desc 0 i := by
  induction i using Nat.strong_induction_on with
  | _ i ih =>
    rcases Nat.eq_zero_or_pos i with h | h
    · subst h; exact .refl 0
    · exact (ih _ (parentIdx_lt h)).trans (Desc.parent i)

/-- A strict descendant's parent is still inside the subtree. -/
theorem desc_parent_mem : ∀ {r c : Nat}, Desc r c → r < c → Desc r (parentIdx c) := by
  intro r c h
  induction h with
  | refl => intro h; exact absurd h (lt_irrefl _)
  | left i h ih =>
    intro _
    rcases Nat.eq_or_lt_of_le h.le with heq | hgt
    · rw [← heq]
      have hpi : parentIdx (2 * i + 1) = i := by unfold parentIdx; omega
      rw [hpi]; exact .refl i
    · exact .left i (ih hgt)
  | right i h ih =>
    intro _
    rcases Nat.eq_or_lt_of_le h.le with heq | hgt
    · rw [← heq]
      have hpi : parentIdx (2 * i + 2) = i := by unfold parentIdx; omega
      rw [hpi]; exact .refl i
    · exact .right i (ih hgt)

theorem desc_lower {r j : Nat} (h : Desc r j) : j = r ∨ 2 * r + 1 ≤ j := by
  cases h with
  | refl => exact Or.inl rfl
  | left i h => exact Or.inr h.le
  | right i h => have := h.le; omega

theorem not_desc_of_lt {r j : Nat} (h : j < r) : ¬ Desc r j :=
  fun hd => absurd hd.le (by omega)

theorem not_desc_left_right (p : Nat) : ¬ Desc (2 * p + 1) (2 * p + 2) := by
  intro h
  rcases desc_lower h with h2 | h2 <;> omega

theorem not_desc_right_left (p : Nat) : ¬ Desc (2 * p + 2) (2 * p + 1) :=
  not_desc_of_lt (by omega)

/-- Subtrees of the two children of a slot are disjoint. -/
theorem desc_sibling_disjoint (p : Nat) :
    ∀ x, ¬ (Desc (2 * p + 1) x ∧ Desc (2 * p + 2) x) := by
  intro x
  induction x using Nat.strong_induction_on with
  | _ x ih =>
    rintro ⟨h1, h2⟩
    have l1 := h1.le
    have l2 := h2.le
    rcases Nat.eq_or_lt_of_le l2 with he | hlt
    · subst he
      exact not_desc_left_right p h1
    · exact ih (parentIdx x) (parentIdx_lt (by omega))
        ⟨desc_parent_mem h1 (by omega), desc_parent_mem h2 hlt⟩

theorem getD_set_eq {α : Type} {l : List α} {i : Nat} (h : i < l.length)
    (a d : α) : (l.set i a).getD i d = a := by
  rw [List.getD_eq_getElem _ _ (by simpa using h)]
  exact List.getElem_set_self _

theorem getD_set_ne {α : Type} {l : List α} {i j : Nat} (h : i ≠ j)
    (a d : α) : (l.set i a).getD j d = l.getD j d := by
  rw [List.getD_eq_getElem?_getD, List.getElem?_set_ne h,
    ← List.getD_eq_getElem?_getD]

theorem set_getD_self {α : Type} (d : α) :
    ∀ (l : List α) (i : Nat), i < l.length → l.set i (l.getD i d) = l
  | _ :: _, 0, _ => rfl
  | a :: t, i + 1, h => by
    show a :: t.set i (t.getD i d) = a :: t
    rw [set_getD_self d t i (by simpa using h)]

theorem perm_cons_set_of_getD {α : Type} (d X : α) :
    ∀ (t : List α) (j : Nat), j < t.length →
      ((t.getD j d) :: t.set j X).Perm (X :: t)
  | c :: t', 0, _ => by
    show (c :: X :: t').Perm (X :: c :: t')
    exact List.Perm.swap _ _ _
  | c :: t', j + 1, h => by
    show (t'.getD j d :: c :: t'.set j X).Perm (X :: c :: t')
    have s1 : (t'.getD j d :: c :: t'.set j X).Perm
        (c :: t'.getD j d :: t'.set j X) := List.Perm.swap _ _ _
    have s2 : (c :: t'.getD j d :: t'.set j X).Perm (c :: X :: t') :=
      (perm_cons_set_of_getD d X t' j (by simpa using h)).cons c
    have s3 : (c :: X :: t').Perm (X :: c :: t') := List.Perm.swap _ _ _
    exact (s1.trans s2).trans s3

theorem perm_set_exchange {α : Type} (a X : α) :
    ∀ (t : List α) (i : Nat), i < t.length →
      (X :: t.set i a).Perm (a :: t.set i X)
  | c :: t', 0, _ => by
    show (X :: a :: t').Perm (a :: X :: t')
    exact List.Perm.swap _ _ _
  | c :: t', i + 1, h => by
    show (X :: c :: t'.set i a).Perm (a :: c :: t'.set i X)
    have s1 : (X :: c :: t'.set i a).Perm (c :: X :: t'.set i a) :=
      List.Perm.swap _ _ _
    have s2 : (c :: X :: t'.set i a).Perm (c :: a :: t'.set i X) :=
      (perm_set_exchange a X t' i (by simpa using h)).cons c
    have s3 : (c :: a :: t'.set i X).Perm (a :: c :: t'.set i X) :=
      List.Perm.swap _ _ _
    exact (s1.trans s2).trans s3

/-- Moving the value of slot `j` into slot `i` and then overwriting slot `j`
is, up to permutation, just overwriting slot `i`. -/
theorem perm_set_move {α : Type} (l : List α) (i j : Nat) (hi : i < l.length)
    (hj : j < l.length) (hne : i ≠ j) (d X : α) :
    ((l.set i (l.getD j d)).set j X).Perm (l.set i X) := by
  induction l generalizing i j with
  | nil => exact absurd hi (by simp)
  | cons a t ih =>
    match i, j with
    | 0, 0 => exact absurd rfl hne
    | 0, j + 1 =>
      show ((t.getD j d) :: t.set j X).Perm (X :: t)
      exact perm_cons_set_of_getD d X t j (by simpa using hj)
    | i + 1, 0 =>
      show (X :: t.set i a).Perm (a :: t.set i X)
      exact perm_set_exchange a X t i (by simpa using hi)
    | i + 1, j + 1 =>
      show (a :: (t.set i (t.getD j d)).set j X).Perm (a :: t.set i X)
      exact (ih i j (by simpa using hi) (by simpa using hj)
        (by omega)).cons a

/-- The `heapq` min-heap property: no slot is smaller than its parent. -/
def IsHeap (l : List HeapEntry) : Prop :=
  ∀ c, 0 < c → c < l.length →
    ¬ pyLt (l.getD c (0, "")) (l.getD (parentIdx c) (0, ""))

/-- The subtree rooted at slot `r` satisfies the heap property. -/
def HeapAt (l : List HeapEntry) (r : Nat) : Prop :=
  ∀ c, 0 < c → c < l.length → Desc r (parentIdx c) →
    ¬ pyLt (l.getD c (0, "")) (l.getD (parentIdx c) (0, ""))

/-- Both child subtrees of slot `r` satisfy the heap property (all edges of
`r`'s subtree except those out of `r` itself). -/
def HeapBelow (l : List HeapEntry) (r : Nat) : Prop :=
  ∀ c, 0 < c → c < l.length → Desc r (parentIdx c) → parentIdx c ≠ r →
    ¬ pyLt (l.getD c (0, "")) (l.getD (parentIdx c) (0, ""))

theorem isHeap_iff_heapAt_zero {l : List HeapEntry} : IsHeap l ↔ HeapAt l 0 :=
  ⟨fun h c h1 h2 _ => h c h1 h2, fun h c h1 h2 => h c h1 h2 (Desc.root _)⟩

theorem heapAt_of_below {l : List HeapEntry} {r s : Nat} (hb : HeapBelow l r)
    (hd : Desc r s) (hlt : r < s) : HeapAt l s := by
  intro c h1 h2 hdc
  have := hdc.le
  exact hb c h1 h2 (hd.trans hdc) (by omega)

/-- In a heap subtree, every slot is at least the subtree root. -/
theorem heapAt_le {l : List HeapEntry} {r : Nat} (h : HeapAt l r) :
    ∀ j, j < l.length → Desc r j →
      ¬ pyLt (l.getD j (0, "")) (l.getD r (0, "")) := by
  intro j
  induction j using Nat.strong_induction_on with
  | _ j ih =>
    intro hj hd
    rcases Nat.eq_or_lt_of_le hd.le with he | hlt
    · rw [← he]; exact pyLt_irrefl _
    · have h0 : 0 < j := by omega
      have hpd : Desc r (parentIdx j) := desc_parent_mem hd hlt
      have hedge := h j h0 hj hpd
      have hpar := ih (parentIdx j) (parentIdx_lt h0)
        (by have := parentIdx_le j; omega) hpd
      exact pyLe_trans hpar hedge

theorem heap_min {l : List HeapEntry} (h : IsHeap l) :
    ∀ j, j < l.length → ¬ pyLt (l.getD j (0, "")) (l.getD 0 (0, "")) :=
  fun j hj => heapAt_le (isHeap_iff_heapAt_zero.mp h) j hj (Desc.root j)

theorem heap_min_mem {l : List HeapEntry} (h : IsHeap l) {q : HeapEntry}
    (hq : q ∈ l) : ¬ pyLt q (l.getD 0 (0, "")) := by
  obtain ⟨j, hj, rfl⟩ := List.mem_iff_getElem.mp hq
  have := heap_min h j hj
  rwa [List.getD_eq_getElem _ _ hj] at this

theorem desc_split {r j : Nat} (h : Desc r j) :
    j = r ∨ Desc (2 * r + 1) j ∨ Desc (2 * r + 2) j := by
  cases h with
  | refl => exact Or.inl rfl
  | left i h => exact Or.inr (Or.inl h)
  | right i h => exact Or.inr (Or.inr h)

/-- Full specification of the `_siftup` hole-descent loop: starting from a
hole at `pos` whose child subtrees are heaps, it walks the hole down to a
leaf of the subtree, shifting the smaller child up at each step.  The
result is the subtree with one slot (the final hole) interchangeable, a
permutation of the input with the hole slot interchangeable, untouched
outside the subtree, with all subtree edges except those out of the hole
satisfied, and the hole content is a value from strictly below. -/
theorem siftupLoop_spec :
    ∀ (fuel : Nat) (l : List HeapEntry) (pos : Nat) (r1 : List HeapEntry)
      (r2 : Nat),
      l.length - pos ≤ fuel → pos < l.length → HeapBelow l pos →
      siftupLoop l.length l pos = (r1, r2) →
      r1.length = l.length ∧ Desc pos r2 ∧ r2 < l.length ∧
      l.length ≤ 2 * r2 + 1 ∧
      (∀ j, j < l.length → ¬ Desc pos j →
        r1.getD j (0, "") = l.getD j (0, "")) ∧
      (∀ X, (r1.set r2 X).Perm (l.set pos X)) ∧
      (∀ c, 0 < c → c < l.length → Desc pos (parentIdx c) →
        parentIdx c ≠ r2 →
        ¬ pyLt (r1.getD c (0, "")) (r1.getD (parentIdx c) (0, ""))) ∧
      ((r1 = l ∧ r2 = pos) ∨
        ∃ j, Desc pos j ∧ pos < j ∧ j < l.length ∧
          r1.getD pos (0, "") = l.getD j (0, "")) := by
  intro fuel
  induction fuel with
  | zero =>
    intro l pos r1 r2 hf hp hb hr
    exact absurd hp (by omega)
  | succ fuel ih =>
    intro l pos r1 r2 hf hp hb hr
    rw [siftupLoop] at hr
    by_cases hc : 2 * pos + 1 < l.length
    · rw [dif_pos hc] at hr
      dsimp only at hr
      simp only [show (2 * pos + 1 + 1) = 2 * pos + 2 from rfl] at hr
      obtain ⟨sc, hsc_child, hsc_lt, hsel, hrec⟩ :
          ∃ sc, (sc = 2 * pos + 1 ∨ sc = 2 * pos + 2) ∧ sc < l.length ∧
            (∀ oc, (oc = 2 * pos + 1 ∨ oc = 2 * pos + 2) → oc ≠ sc →
              oc < l.length →
              ¬ pyLt (l.getD oc (0, "")) (l.getD sc (0, ""))) ∧
            siftupLoop l.length (l.set pos (l.getD sc (0, ""))) sc =
              (r1, r2) := by
        by_cases hcond : 2 * pos + 2 < l.length ∧
            ¬ pyLt (l.getD (2 * pos + 1) (0, "")) (l.getD (2 * pos + 2) (0, ""))
        · rw [if_pos hcond] at hr
          refine ⟨2 * pos + 2, Or.inr rfl, hcond.1, ?_, hr⟩
          intro oc hoc hne hocl
          have hoc1 : oc = 2 * pos + 1 := by omega
          subst hoc1
          exact hcond.2
        · rw [if_neg hcond] at hr
          refine ⟨2 * pos + 1, Or.inl rfl, hc, ?_, hr⟩
          intro oc hoc hne hocl
          have hoc2 : oc = 2 * pos + 2 := by omega
          subst hoc2
          have hplt : pyLt (l.getD (2 * pos + 1) (0, ""))
              (l.getD (2 * pos + 2) (0, "")) := by
            by_contra hnp
            exact hcond ⟨hocl, hnp⟩
          exact pyLt_asymm hplt
      have hscge : 2 * pos + 1 ≤ sc := by rcases hsc_child with h | h <;> omega
      have hpos_ne : pos ≠ sc := by omega
      have hDsc : Desc pos sc := by
        rcases hsc_child with h | h <;> subst h
        · exact Desc.child_left pos
        · exact Desc.child_right pos
      have hlen' : (l.set pos (l.getD sc (0, ""))).length = l.length := by simp
      have hb' : HeapBelow (l.set pos (l.getD sc (0, ""))) sc := by
        intro c h0 hcl hdesc hne
        have hsle := hdesc.le
        have hc_gt : parentIdx c < c := parentIdx_lt h0
        rw [getD_set_ne (by omega : pos ≠ c),
          getD_set_ne (by omega : pos ≠ parentIdx c)]
        exact hb c h0 (by simpa using hcl) (hDsc.trans hdesc) (by omega)
      have hrec' : siftupLoop (l.set pos (l.getD sc (0, ""))).length
          (l.set pos (l.getD sc (0, ""))) sc = (r1, r2) := by
        rw [List.length_set]; exact hrec
      obtain ⟨ih1, ih2, ih3, ih4, ih5, ih6, ih7, ih8⟩ :=
        ih (l.set pos (l.getD sc (0, ""))) sc r1 r2
          (by simp; omega) (by simpa using hsc_lt) hb' hrec'
      rw [hlen'] at ih1 ih3 ih4
      refine ⟨ih1, hDsc.trans ih2, ih3, ih4, ?_, ?_, ?_, ?_⟩
      · intro j hj hnd
        have hnd' : ¬ Desc sc j := fun h => hnd (hDsc.trans h)
        have hjne : pos ≠ j := fun h => hnd (h ▸ Desc.refl pos)
        rw [ih5 j (by simpa using hj) hnd', getD_set_ne hjne]
      · intro X
        exact (ih6 X).trans (perm_set_move l pos sc hp hsc_lt hpos_ne (0, "") X)
      · intro c h0 hcl hdpc hner2
        by_cases hin : Desc sc (parentIdx c)
        · exact ih7 c h0 (by simpa using hcl) hin hner2
        · rcases desc_split hdpc with hpp | hsub | hsub
          · -- the edge hangs off the old hole `pos` itself
            have hndp : ¬ Desc sc pos := not_desc_of_lt (by omega)
            have hval_p : r1.getD (parentIdx c) (0, "") = l.getD sc (0, "") := by
              rw [hpp, ih5 pos (by simpa using hp) hndp, getD_set_eq hp]
            by_cases hcsc : c = sc
            · rcases ih8 with ⟨he1, he2⟩ | ⟨j, hdj, hltj, hjl, heq⟩
              · rw [hval_p, hcsc, he1, getD_set_ne hpos_ne]
                exact pyLt_irrefl _
              · have hsclt2 : sc < j := hltj
                have hvq : r1.getD sc (0, "") = l.getD j (0, "") := by
                  rw [heq, getD_set_ne (by omega : pos ≠ j)]
                rw [hval_p, hcsc, hvq]
                exact heapAt_le (heapAt_of_below hb hDsc (by omega)) j
                  (by simpa using hjl) hdj
            · have hcoc : c = 2 * pos + 1 ∨ c = 2 * pos + 2 :=
                parentIdx_child hpp h0
              have hnds : ¬ Desc sc c := by
                rcases hsc_child with hs | hs <;> rcases hcoc with hcv | hcv
                · exact absurd (hcv.trans hs.symm) hcsc
                · rw [hs, hcv]; exact not_desc_left_right pos
                · rw [hs, hcv]; exact not_desc_right_left pos
                · exact absurd (hcv.trans hs.symm) hcsc
              have hcge : 2 * pos + 1 ≤ c := by rcases hcoc with h | h <;> omega
              have hval_c : r1.getD c (0, "") = l.getD c (0, "") := by
                rw [ih5 c (by simpa using hcl) hnds,
                  getD_set_ne (by omega : pos ≠ c)]
              rw [hval_c, hval_p]
              exact hsel c hcoc hcsc hcl
          · -- the edge lies in the subtree of one of the two children
            refine ?_ -- handled uniformly over which child below
            have hoc_case : ∀ ch, (ch = 2 * pos + 1 ∨ ch = 2 * pos + 2) →
                Desc ch (parentIdx c) →
                ¬ pyLt (r1.getD c (0, "")) (r1.getD (parentIdx c) (0, "")) := by
              intro ch hch hdch
              by_cases hchsc : ch = sc
              · exact absurd (hchsc ▸ hdch) hin
              · have hchge : 2 * pos + 1 ≤ ch := by
                  rcases hch with h | h <;> omega
                have hle2 := hdch.le
                have hcgt : parentIdx c < c := parentIdx_lt h0
                have hnds_c : ¬ Desc sc c := by
                  intro hscc
                  have hdc : Desc ch c := hdch.trans (Desc.parent c)
                  rcases hch with h | h <;> rcases hsc_child with hs | hs
                  · exact hchsc (h.trans hs.symm)
                  · exact desc_sibling_disjoint pos c ⟨h ▸ hdc, hs ▸ hscc⟩
                  · exact desc_sibling_disjoint pos c ⟨hs ▸ hscc, h ▸ hdc⟩
                  · exact hchsc (h.trans hs.symm)
                rw [ih5 c (by simpa using hcl) hnds_c,
                  getD_set_ne (by omega : pos ≠ c),
                  ih5 (parentIdx c) (by simp; omega) hin,
                  getD_set_ne (by omega : pos ≠ parentIdx c)]
                exact hb c h0 hcl hdpc (by omega)
            exact hoc_case _ (Or.inl rfl) hsub
          · have hoc_case : ∀ ch, (ch = 2 * pos + 1 ∨ ch = 2 * pos + 2) →
                Desc ch (parentIdx c) →
                ¬ pyLt (r1.getD c (0, "")) (r1.getD (parentIdx c) (0, "")) := by
              intro ch hch hdch
              by_cases hchsc : ch = sc
              · exact absurd (hchsc ▸ hdch) hin
              · have hchge : 2 * pos + 1 ≤ ch := by
                  rcases hch with h | h <;> omega
                have hle2 := hdch.le
                have hcgt : parentIdx c < c := parentIdx_lt h0
                have hnds_c : ¬ Desc sc c := by
                  intro hscc
                  have hdc : Desc ch c := hdch.trans (Desc.parent c)
                  rcases hch with h | h <;> rcases hsc_child with hs | hs
                  · exact hchsc (h.trans hs.symm)
                  · exact desc_sibling_disjoint pos c ⟨h ▸ hdc, hs ▸ hscc⟩
                  · exact desc_sibling_disjoint pos c ⟨hs ▸ hscc, h ▸ hdc⟩
                  · exact hchsc (h.trans hs.symm)
                rw [ih5 c (by simpa using hcl) hnds_c,
                  getD_set_ne (by omega : pos ≠ c),
                  ih5 (parentIdx c) (by simp; omega) hin,
                  getD_set_ne (by omega : pos ≠ parentIdx c)]
                exact hb c h0 hcl hdpc (by omega)
            exact hoc_case _ (Or.inr rfl) hsub
      · have hndp : ¬ Desc sc pos := not_desc_of_lt (by omega)
        refine Or.inr ⟨sc, hDsc, by omega, hsc_lt, ?_⟩
        rw [ih5 pos (by simpa using hp) hndp, getD_set_eq hp]
    · rw [dif_neg hc] at hr
      injection hr with h1 h2
      subst h1; subst h2
      exact ⟨rfl, .refl _, hp, by omega, fun j hj hnd => rfl, fun X => .refl _,
        fun c h0 hcl hdpc hne => hb c h0 hcl hdpc hne, Or.inl ⟨rfl, rfl⟩⟩

/-- Full specification of the `_siftdown` hole-ascent loop: a hole at `pos`
(inside the subtree of `start`, with all other subtree edges satisfied, the
hole being a leaf or at least its parent, and the hole's current value at
least `newitem`) bubbles up while `newitem` is smaller than the parent.
The result keeps all edges except those out of the final hole, the final
hole's value is at least `newitem`, and on exit either the hole reached
`start` or `newitem` is not smaller than the final hole's parent. -/
theorem siftdownLoop_spec :
    ∀ (fuel : Nat) (newitem : HeapEntry) (start : Nat) (l : List HeapEntry)
      (pos : Nat) (r1 : List HeapEntry) (r2 : Nat),
      pos ≤ fuel → Desc start pos → pos < l.length →
      (∀ c, 0 < c → c < l.length → Desc start (parentIdx c) → c ≠ pos →
        ¬ pyLt (l.getD c (0, "")) (l.getD (parentIdx c) (0, ""))) →
      (pos = start ∨ (∀ c, 0 < c → c < l.length → parentIdx c ≠ pos) ∨
        ¬ pyLt (l.getD pos (0, "")) (l.getD (parentIdx pos) (0, ""))) →
      ¬ pyLt (l.getD pos (0, "")) newitem →
      siftdownLoop newitem start l pos = (r1, r2) →
      r1.length = l.length ∧ Desc start r2 ∧ r2 < l.length ∧
      (∀ j, j < l.length → ¬ Desc start j →
        r1.getD j (0, "") = l.getD j (0, "")) ∧
      ((r1.set r2 newitem).Perm (l.set pos newitem)) ∧
      (∀ c, 0 < c → c < l.length → Desc start (parentIdx c) → c ≠ r2 →
        ¬ pyLt (r1.getD c (0, "")) (r1.getD (parentIdx c) (0, ""))) ∧
      (¬ pyLt (r1.getD r2 (0, "")) newitem) ∧
      (r2 = start ∨ ¬ pyLt newitem (r1.getD (parentIdx r2) (0, ""))) := by
  intro fuel
  induction fuel with
  | zero =>
    intro newitem start l pos r1 r2 hf hd hp hU hb2 hU3 hr
    have hpos0 : pos = 0 := by omega
    have hstart0 : start = 0 := by have := hd.le; omega
    subst hpos0; subst hstart0
    rw [siftdownLoop, dif_neg (lt_irrefl 0)] at hr
    injection hr with h1 h2
    subst h1; subst h2
    exact ⟨rfl, hd, hp, fun j hj hnd => rfl, .refl _,
      fun c h0 hcl hdp hne => hU c h0 hcl hdp hne, hU3, Or.inl rfl⟩
  | succ fuel ih =>
    intro newitem start l pos r1 r2 hf hd hp hU hb2 hU3 hr
    rw [siftdownLoop] at hr
    by_cases hsp : start < pos
    · rw [dif_pos hsp] at hr
      dsimp only at hr
      by_cases hmv : pyLt newitem (l.getD (parentIdx pos) (0, ""))
      · rw [if_pos hmv] at hr
        have h0pos : 0 < pos := by omega
        have hpplt : parentIdx pos < pos := parentIdx_lt h0pos
        have hdpp : Desc start (parentIdx pos) := desc_parent_mem hd hsp
        have hU' : ∀ c, 0 < c →
            c < (l.set pos (l.getD (parentIdx pos) (0, ""))).length →
            Desc start (parentIdx c) → c ≠ parentIdx pos →
            ¬ pyLt
              ((l.set pos (l.getD (parentIdx pos) (0, ""))).getD c (0, ""))
              ((l.set pos (l.getD (parentIdx pos) (0, ""))).getD
                (parentIdx c) (0, "")) := by
          intro c h0 hcl hdpc hne
          rw [List.length_set] at hcl
          by_cases hcp : c = pos
          · rw [hcp, getD_set_eq hp,
              getD_set_ne (by omega : pos ≠ parentIdx pos)]
            exact pyLt_irrefl _
          · by_cases hcpp : parentIdx c = pos
            · rw [getD_set_ne (by omega : pos ≠ c), hcpp, getD_set_eq hp]
              rcases hb2 with hbs | hbl | hbe
              · exact absurd hbs (by omega)
              · exact absurd hcpp (hbl c h0 hcl)
              · have h1 : ¬ pyLt (l.getD c (0, "")) (l.getD pos (0, "")) := by
                  have h2 := hU c h0 hcl (by rw [hcpp]; exact hd) hcp
                  rwa [hcpp] at h2
                exact pyLe_trans hbe h1
            · rw [getD_set_ne (by omega : pos ≠ c),
                getD_set_ne (by omega : pos ≠ parentIdx c)]
              exact hU c h0 hcl hdpc hcp
        have hb2' : parentIdx pos = start ∨
            (∀ c, 0 < c →
              c < (l.set pos (l.getD (parentIdx pos) (0, ""))).length →
              parentIdx c ≠ parentIdx pos) ∨
            ¬ pyLt
              ((l.set pos (l.getD (parentIdx pos) (0, ""))).getD
                (parentIdx pos) (0, ""))
              ((l.set pos (l.getD (parentIdx pos) (0, ""))).getD
                (parentIdx (parentIdx pos)) (0, "")) := by
          by_cases hpps : parentIdx pos = start
          · exact Or.inl hpps
          · refine Or.inr (Or.inr ?_)
            have hle := hdpp.le
            have hpp0 : 0 < parentIdx pos := by omega
            rw [getD_set_ne (by omega : pos ≠ parentIdx pos),
              getD_set_ne
                (by have := parentIdx_lt hpp0; omega :
                  pos ≠ parentIdx (parentIdx pos))]
            exact hU (parentIdx pos) hpp0 (by omega)
              (desc_parent_mem hdpp (by omega)) (by omega)
        have hU3' : ¬ pyLt
            ((l.set pos (l.getD (parentIdx pos) (0, ""))).getD
              (parentIdx pos) (0, "")) newitem := by
          rw [getD_set_ne (by omega : pos ≠ parentIdx pos)]
          exact pyLt_asymm hmv
        obtain ⟨ih1, ih2, ih3, ih4, ih5, ih6, ih7, ih8⟩ :=
          ih newitem start (l.set pos (l.getD (parentIdx pos) (0, "")))
            (parentIdx pos) r1 r2 (by omega) hdpp (by simp; omega)
            hU' hb2' hU3' hr
        rw [List.length_set] at ih1 ih3
        simp only [List.length_set] at ih6
        refine ⟨ih1, ih2, ih3, ?_, ?_, ih6, ih7, ih8⟩
        · intro j hj hnd
          have hjne : pos ≠ j := fun h => hnd (h ▸ hd)
          rw [ih4 j (by simpa using hj) hnd, getD_set_ne hjne]
        · exact ih5.trans (perm_set_move l pos (parentIdx pos) hp
            (by omega) (by omega) (0, "") newitem)
      · rw [if_neg hmv] at hr
        injection hr with h1 h2
        subst h1; subst h2
        exact ⟨rfl, hd, hp, fun j hj hnd => rfl, .refl _,
          fun c h0 hcl hdp hne => hU c h0 hcl hdp hne, hU3, Or.inr hmv⟩
    · rw [dif_neg hsp] at hr
      injection hr with h1 h2
      subst h1; subst h2
      have hps : pos = start := by have := hd.le; omega
      exact ⟨rfl, hd, hp, fun j hj hnd => rfl, .refl _,
        fun c h0 hcl hdp hne => hU c h0 hcl hdp hne, hU3, Or.inl hps⟩

/-- `_siftdown` specification: called with a hole at a leaf position `pos`
of the subtree of `start` (its saved value being `heap[pos]` itself), with
all other subtree edges satisfied, it restores the heap property on the
whole subtree, permuting the list and touching only the subtree. -/
theorem siftdown_spec (l : List HeapEntry) (start pos : Nat)
    (hd : Desc start pos) (hp : pos < l.length)
    (hU : ∀ c, 0 < c → c < l.length → Desc start (parentIdx c) → c ≠ pos →
      ¬ pyLt (l.getD c (0, "")) (l.getD (parentIdx c) (0, "")))
    (hleaf : ∀ c, 0 < c → c < l.length → parentIdx c ≠ pos) :
    (siftdown l start pos).length = l.length ∧
    (siftdown l start pos).Perm l ∧
    (∀ j, j < l.length → ¬ Desc start j →
      (siftdown l start pos).getD j (0, "") = l.getD j (0, "")) ∧
    HeapAt (siftdown l start pos) start := by
  unfold siftdown
  dsimp only
  rcases hres : siftdownLoop (l.getD pos (0, "")) start l pos with ⟨r1, r2⟩
  dsimp only
  obtain ⟨h1, h2, h3, h4, h5, h6, h7, h8⟩ :=
    siftdownLoop_spec pos (l.getD pos (0, "")) start l pos r1 r2
      (le_refl pos) hd hp hU (Or.inr (Or.inl hleaf)) (pyLt_irrefl _) hres
  refine ⟨by simp [h1], ?_, ?_, ?_⟩
  · have hpm := h5
    rwa [set_getD_self (0, "") l pos hp] at hpm
  · intro j hj hnd
    have hjr2 : r2 ≠ j := fun h => hnd (h ▸ h2)
    rw [getD_set_ne hjr2, h4 j hj hnd]
  · intro c h0 hcl hdpc
    rw [List.length_set, h1] at hcl
    by_cases hcr2 : c = r2
    · rcases h8 with hstart | hpar
      · exfalso
        have hle := hdpc.le
        have hps : parentIdx c < c := parentIdx_lt h0
        have hcs : c = start := by rw [hcr2, hstart]
        omega
      · have hr20 : 0 < r2 := by omega
        rw [hcr2, getD_set_eq (by rw [h1]; exact h3),
          getD_set_ne (by have := parentIdx_lt hr20; omega :
            r2 ≠ parentIdx r2)]
        exact hpar
    · have hc_val : (r1.set r2 (l.getD pos (0, ""))).getD c (0, "") =
          r1.getD c (0, "") := getD_set_ne (fun h => hcr2 h.symm) _ _
      by_cases hpcr2 : parentIdx c = r2
      · rw [hc_val, hpcr2, getD_set_eq (by rw [h1]; exact h3)]
        have hedge := h6 c h0 hcl (hpcr2 ▸ hdpc) hcr2
        rw [hpcr2] at hedge
        exact pyLe_trans h7 hedge
      · rw [hc_val, getD_set_ne (fun h => hpcr2 h.symm)]
        exact h6 c h0 hcl hdpc hcr2

/-- `_siftup` specification: if both child subtrees of `pos` are heaps, it
makes the whole subtree of `pos` a heap, permuting the list and touching
only the subtree. -/
theorem siftup_spec (l : List HeapEntry) (pos : Nat) (hp : pos < l.length)
    (hb : HeapBelow l pos) :
    (siftup l pos).length = l.length ∧
    (siftup l pos).Perm l ∧
    (∀ j, j < l.length → ¬ Desc pos j →
      (siftup l pos).getD j (0, "") = l.getD j (0, "")) ∧
    HeapAt (siftup l pos) pos := by
  unfold siftup
  dsimp only
  rcases hres : siftupLoop l.length l pos with ⟨r1, r2⟩
  dsimp only
  obtain ⟨h1, h2, h3, h4, h5, h6, h7, h8⟩ :=
    siftupLoop_spec (l.length - pos) l pos r1 r2 (le_refl _) hp hb hres
  have hmlen : (r1.set r2 (l.getD pos (0, ""))).length = l.length := by
    simp [h1]
  have hr2m : r2 < (r1.set r2 (l.getD pos (0, ""))).length := by
    rw [hmlen]; exact h3
  have hU : ∀ c, 0 < c → c < (r1.set r2 (l.getD pos (0, ""))).length →
      Desc pos (parentIdx c) → c ≠ r2 →
      ¬ pyLt ((r1.set r2 (l.getD pos (0, ""))).getD c (0, ""))
        ((r1.set r2 (l.getD pos (0, ""))).getD (parentIdx c) (0, "")) := by
    intro c h0 hcl hdpc hne
    rw [hmlen] at hcl
    have hpcne : parentIdx c ≠ r2 := by
      intro h
      have := child_ge h h0
      omega
    rw [getD_set_ne (fun h => hne h.symm), getD_set_ne (fun h => hpcne h.symm)]
    exact h7 c h0 hcl hdpc hpcne
  have hleaf : ∀ c, 0 < c → c < (r1.set r2 (l.getD pos (0, ""))).length →
      parentIdx c ≠ r2 := by
    intro c h0 hcl h
    rw [hmlen] at hcl
    have := child_ge h h0
    omega
  obtain ⟨s1, s2, s3, s4⟩ :=
    siftdown_spec (r1.set r2 (l.getD pos (0, ""))) pos r2 h2 hr2m hU hleaf
  refine ⟨by rw [s1, hmlen], ?_, ?_, s4⟩
  · have hper : (r1.set r2 (l.getD pos (0, ""))).Perm l := by
      have hpm := h6 (l.getD pos (0, ""))
      rwa [set_getD_self (0, "") l pos hp] at hpm
    exact s2.trans hper
  · intro j hj hnd
    have hjne : r2 ≠ j := fun h => hnd (h ▸ h2)
    rw [s3 j (by rw [hmlen]; exact hj) hnd, getD_set_ne hjne, h5 j hj hnd]

/-- `heappush` preserves the heap property and appends the new element, up
to permutation. -/
theorem heappush_spec {l : List HeapEntry} (x : HeapEntry) (h : IsHeap l) :
    IsHeap (heappush l x) ∧ (heappush l x).Perm (l ++ [x]) ∧
    (heappush l x).length = l.length + 1 := by
  unfold heappush
  have hlen : (l ++ [x]).length = l.length + 1 := by simp
  have hp : l.length < (l ++ [x]).length := by simp
  have hU : ∀ c, 0 < c → c < (l ++ [x]).length → Desc 0 (parentIdx c) →
      c ≠ l.length →
      ¬ pyLt ((l ++ [x]).getD c (0, ""))
        ((l ++ [x]).getD (parentIdx c) (0, "")) := by
    intro c h0 hcl hdp hne
    rw [hlen] at hcl
    have hclt : c < l.length := by omega
    have hplt : parentIdx c < l.length := by
      have := parentIdx_lt h0; omega
    rw [List.getD_append _ _ _ _ hclt, List.getD_append _ _ _ _ hplt]
    exact h c h0 hclt
  have hleaf : ∀ c, 0 < c → c < (l ++ [x]).length → parentIdx c ≠ l.length := by
    intro c h0 hcl hpc
    rw [hlen] at hcl
    have := child_ge hpc h0
    omega
  obtain ⟨s1, s2, s3, s4⟩ :=
    siftdown_spec (l ++ [x]) 0 l.length (Desc.root _) hp hU hleaf
  exact ⟨isHeap_iff_heapAt_zero.mpr s4, s2, by rw [s1, hlen]⟩

/-- The `heapify` loop establishes the heap property from the bottom up. -/
theorem heapify_go_spec : ∀ (i : Nat) (l : List HeapEntry),
    2 * i ≤ l.length →
    (∀ c, 0 < c → c < l.length → i ≤ parentIdx c →
      ¬ pyLt (l.getD c (0, "")) (l.getD (parentIdx c) (0, ""))) →
    (heapifyGo l i).length = l.length ∧ (heapifyGo l i).Perm l ∧
    IsHeap (heapifyGo l i) := by
  intro i
  induction i with
  | zero =>
    intro l h2 hedges
    exact ⟨rfl, .refl _, fun c h0 hcl => hedges c h0 hcl (Nat.zero_le _)⟩
  | succ i ih =>
    intro l h2 hedges
    rw [show heapifyGo l (i + 1) = heapifyGo (siftup l i) i from rfl]
    have hip : i < l.length := by omega
    have hb : HeapBelow l i := by
      intro c h0 hcl hdesc hne
      have hge : 2 * i + 1 ≤ parentIdx c := by
        rcases desc_lower hdesc with h | h
        · exact absurd h hne
        · exact h
      exact hedges c h0 hcl (by omega)
    obtain ⟨s1, s2, s3, s4⟩ := siftup_spec l i hip hb
    have hedges' : ∀ c, 0 < c → c < (siftup l i).length → i ≤ parentIdx c →
        ¬ pyLt ((siftup l i).getD c (0, ""))
          ((siftup l i).getD (parentIdx c) (0, "")) := by
      intro c h0 hcl hle
      rw [s1] at hcl
      by_cases hdp : Desc i (parentIdx c)
      · exact s4 c h0 (by rw [s1]; exact hcl) hdp
      · have hnc : ¬ Desc i c := by
          intro hic
          have hlt : i < c := by
            rcases Nat.eq_or_lt_of_le hic.le with h | h
            · exfalso; have := parentIdx_lt h0; omega
            · exact h
          exact hdp (desc_parent_mem hic hlt)
        have hnei : parentIdx c ≠ i := fun h => hdp (by rw [h]; exact Desc.refl i)
        rw [s3 c hcl hnc,
          s3 (parentIdx c) (by have := parentIdx_le c; omega) hdp]
        exact hedges c h0 hcl (by omega)
    obtain ⟨t1, t2, t3⟩ := ih (siftup l i) (by rw [s1]; omega) hedges'
    exact ⟨by rw [t1, s1], t2.trans s2, t3⟩

/-- `heapify` turns any list into a heap, up to permutation. -/
theorem heapify_spec (l : List HeapEntry) :
    (heapify l).length = l.length ∧ (heapify l).Perm l ∧
    IsHeap (heapify l) := by
  unfold heapify
  refine heapify_go_spec (l.length / 2) l (by omega) ?_
  intro c h0 hcl hle
  exfalso
  unfold parentIdx at hle
  omega

/-- `heappop` on a nonempty heap pops a minimal element: the popped element
together with the remaining list is a permutation of the input, the
remainder is a heap one element shorter, and nothing in it is smaller than
the popped element. -/
theorem heappop_spec {l : List HeapEntry} (hH : IsHeap l) (hne : l ≠ []) :
    ((heappop l).1 :: (heappop l).2).Perm l ∧ IsHeap (heappop l).2 ∧
    (heappop l).2.length = l.length - 1 ∧
    (∀ q ∈ (heappop l).2, ¬ pyLt q (heappop l).1) := by
  unfold heappop
  rw [List.getLast?_eq_getLast l hne]
  dsimp only
  by_cases hemp : l.dropLast.isEmpty
  · rw [if_pos hemp]
    have h0 : l.dropLast = [] := List.isEmpty_iff.mp hemp
    have hpos := List.length_pos.mpr hne
    have hlen : l.length = 1 := by
      have hdl := List.length_dropLast l
      rw [h0] at hdl
      simp at hdl
      omega
    have hl : l = [l.getLast hne] := by
      conv_lhs => rw [← List.dropLast_append_getLast hne]
      rw [h0]; rfl
    refine ⟨?_, ?_, ?_, ?_⟩
    · dsimp only
      conv_rhs => rw [hl]
    · intro c hc0 hcl
      exact absurd hcl (by simp)
    · simp [hlen]
    · intro q hq
      simp at hq
  · rw [if_neg hemp]
    dsimp only
    have hrne : l.dropLast ≠ [] := fun h => hemp (by rw [h]; rfl)
    have hlen2 : 2 ≤ l.length := by
      have h1 := List.length_pos.mpr hne
      have h2 := List.length_pos.mpr hrne
      rw [List.length_dropLast] at h2
      omega
    obtain ⟨m0, t, hrest⟩ : ∃ m0 t, l.dropLast = m0 :: t := by
      cases hdl : l.dropLast with
      | nil => exact absurd hdl hrne
      | cons a t => exact ⟨a, t, rfl⟩
    have hL : l = l.dropLast ++ [l.getLast hne] :=
      (List.dropLast_append_getLast hne).symm
    have hset : l.dropLast.set 0 (l.getLast hne) = l.getLast hne :: t := by
      rw [hrest]; rfl
    have hl2 : l = m0 :: (t ++ [l.getLast hne]) := by
      conv_lhs => rw [hL, hrest]
      rfl
    have hslen : (l.dropLast.set 0 (l.getLast hne)).length = l.length - 1 := by
      simp [List.length_dropLast]
    have hp0 : 0 < (l.dropLast.set 0 (l.getLast hne)).length := by
      rw [hslen]; omega
    have hgd : ∀ k, k < l.length - 1 →
        l.dropLast.getD k (0, "") = l.getD k (0, "") := by
      intro k hk
      rw [List.getD_eq_getElem _ _ (by rw [List.length_dropLast]; exact hk),
        List.getD_eq_getElem _ _ (by omega), List.getElem_dropLast]
    have hb0 : HeapBelow (l.dropLast.set 0 (l.getLast hne)) 0 := by
      intro c h0 hcl hdesc hnep
      have hpc0 : 0 < parentIdx c := Nat.pos_of_ne_zero hnep
      rw [hslen] at hcl
      rw [getD_set_ne (by omega : 0 ≠ c),
        getD_set_ne (by omega : 0 ≠ parentIdx c)]
      rw [hgd c hcl, hgd (parentIdx c) (by have := parentIdx_lt h0; omega)]
      exact hH c h0 (by omega)
    obtain ⟨s1, s2, s3, s4⟩ :=
      siftup_spec (l.dropLast.set 0 (l.getLast hne)) 0 hp0 hb0
    have hm : l.dropLast.getD 0 (0, "") = m0 := by rw [hrest]; rfl
    refine ⟨?_, ?_, ?_, ?_⟩
    · have hperm1 : (siftup (l.dropLast.set 0 (l.getLast hne)) 0).Perm
          (l.getLast hne :: t) := by rw [← hset]; exact s2
      rw [hm]
      conv_rhs => rw [hl2]
      refine List.Perm.cons m0 ?_
      exact hperm1.trans (List.perm_append_singleton _ _).symm
    · exact isHeap_iff_heapAt_zero.mpr s4
    · rw [s1, hslen]
    · intro q hq
      have hq2 : q ∈ l.dropLast.set 0 (l.getLast hne) := s2.mem_iff.mp hq
      rw [hset] at hq2
      have hql : q ∈ l := by
        rcases List.mem_cons.mp hq2 with h | h
        · rw [hl2, h]
          exact List.mem_cons_of_mem _
            (List.mem_append.mpr (Or.inr (List.mem_cons_self _ _)))
        · rw [hl2]
          exact List.mem_cons_of_mem _ (List.mem_append.mpr (Or.inl h))
      have hmin := heap_min_mem hH hql
      have hm0 : l.dropLast.getD 0 (0, "") = l.getD 0 (0, "") :=
        hgd 0 (by omega)
      rw [hm0]
      exact hmin

/-- `update_frequency` keeps the `most_frequent` heap well formed: it stays
a heap, keeps one entry per url, the entry of each url `u` is
`(-(count u), u)` for the updated counter, and the tracked urls are the old
ones plus the accessed one. -/
theorem update_frequency_heap (c : String → Nat) (heap : List HeapEntry)
    (k : String) (hH : IsHeap heap)
    (hnd : (heap.map (fun p => p.2)).Nodup)
    (hent : ∀ p ∈ heap, p.1 = -(c p.2 : Int) ∧ 0 < c p.2) :
    IsHeap (update_frequency c heap k).2 ∧
    ((update_frequency c heap k).2.map (fun p => p.2)).Nodup ∧
    (∀ p ∈ (update_frequency c heap k).2,
      p.1 = -((update_frequency c heap k).1 p.2 : Int) ∧
      0 < (update_frequency c heap k).1 p.2) ∧
    (∀ u, u ∈ (update_frequency c heap k).2.map (fun p => p.2) ↔
      (u = k ∨ u ∈ heap.map (fun p => p.2))) := by
  unfold update_frequency
  dsimp only
  cases hfind : heap.findIdx? (fun p => p.2 = k) with
  | some i =>
    dsimp only
    rw [show (if k = k then c k + 1 else c k) = c k + 1 from by simp]
    obtain ⟨hilen, hpi, -⟩ := List.findIdx?_eq_some_iff_getElem.mp hfind
    have hik : (heap[i]).2 = k := by simpa using hpi
    obtain ⟨hy1, hy2, hy3⟩ :=
      heapify_spec (heap.set i (-((c k + 1 : Nat) : Int), k))
    have hmap : (heap.set i (-((c k + 1 : Nat) : Int), k)).map (fun p => p.2) =
        heap.map (fun p => p.2) := by
      rw [List.map_set]
      dsimp only
      have hk2 : ((heap.map (fun p => p.2)).getD i "") = k := by
        rw [List.getD_eq_getElem _ _ (by simpa using hilen)]
        simp [hik]
      rw [← hk2, set_getD_self "" _ i (by simpa using hilen)]
    have hpm := hy2.map (fun p => p.2)
    rw [hmap] at hpm
    refine ⟨hy3, hpm.nodup_iff.mpr hnd, ?_, ?_⟩
    · intro p hp
      have hp2 : p ∈ heap.set i (-((c k + 1 : Nat) : Int), k) := hy2.mem_iff.mp hp
      obtain ⟨j, hj, hpj⟩ := List.mem_iff_getElem.mp hp2
      by_cases hji : j = i
      · subst hji
        rw [List.getElem_set_self (by simpa using hj)] at hpj
        rw [← hpj]
        simp
      · rw [List.getElem_set_ne (fun h => hji h.symm) _] at hpj
        have hpmem : p ∈ heap := hpj ▸ List.getElem_mem _
        have hpne : p.2 ≠ k := by
          intro hpk
          have hj2 : j < (heap.map (fun p => p.2)).length := by simpa using hj
          have hi2 : i < (heap.map (fun p => p.2)).length := by
            simpa using hilen
          have hji2 : (heap.map (fun p => p.2))[j] =
              (heap.map (fun p => p.2))[i] := by
            rw [List.getElem_map, List.getElem_map, hpj, hik, hpk]
          exact hji (hnd.getElem_inj_iff.mp hji2)
        rw [if_neg hpne]
        exact hent p hpmem
    · intro u
      rw [hpm.mem_iff]
      constructor
      · exact fun h => Or.inr h
      · rintro (h | h)
        · subst h
          rw [List.mem_iff_getElem]
          exact ⟨i, by simpa using hilen, by simp [hik]⟩
        · exact h
  | none =>
    dsimp only
    rw [show (if k = k then c k + 1 else c k) = c k + 1 from by simp]
    have hnone := List.findIdx?_eq_none_iff.mp hfind
    have hknot : ∀ p ∈ heap, p.2 ≠ k := by
      intro p hp
      have := hnone p hp
      simpa using this
    obtain ⟨hp1, hp2, hp3⟩ := heappush_spec ((-((c k + 1 : Nat) : Int), k)) hH
    have hpm := hp2.map (fun p => p.2)
    rw [List.map_append] at hpm
    refine ⟨hp1, ?_, ?_, ?_⟩
    · refine hpm.nodup_iff.mpr ?_
      rw [List.nodup_append]
      refine ⟨hnd, List.nodup_singleton _, ?_⟩
      intro u hu hu2
      simp only [List.map_cons, List.map_nil, List.mem_singleton] at hu2
      subst hu2
      obtain ⟨p, hp, hpk⟩ := List.mem_map.mp hu
      exact hknot p hp hpk
    · intro p hp
      have hp' : p ∈ heap ++ [(-((c k + 1 : Nat) : Int), k)] := hp2.mem_iff.mp hp
      rcases List.mem_append.mp hp' with h | h
      · have hpne := hknot p h
        rw [if_neg hpne]
        exact hent p h
      · simp only [List.mem_singleton] at h
        subst h
        simp
    · intro u
      rw [hpm.mem_iff]
      simp only [List.map_cons, List.map_nil, List.mem_append,
        List.mem_singleton]
      constructor
      · rintro (h | h)
        · exact Or.inr h
        · exact Or.inl h
      · rintro (h | h)
        · exact Or.inr h
        · exact Or.inl h

theorem slotKeys_replicate : slotKeys (List.replicate CUCKOO_SIZE none) = [] := by
  simp [slotKeys]

/-- Overwriting a slot can only add the written key to a table's key set. -/
theorem mem_slotKeys_set {t : List Slot} {i : Nat} {cc cv x : String}
    (hx : x ∈ slotKeys (t.set i (some (cc, cv)))) :
    x = cc ∨ x ∈ slotKeys t := by
  by_cases hi : i < t.length
  · cases hd : t.getD i none with
    | none =>
      obtain ⟨A, B, hAB, hset⟩ := slotKeys_set_none cc cv hd hi
      rw [hset] at hx
      rcases List.mem_append.mp hx with h | h
      · exact Or.inr (by rw [hAB]; exact List.mem_append.mpr (Or.inl h))
      · rcases List.mem_cons.mp h with h | h
        · exact Or.inl h
        · exact Or.inr (by rw [hAB]; exact List.mem_append.mpr (Or.inr h))
    | some p =>
      obtain ⟨k1, v1⟩ := p
      obtain ⟨A, B, hAB, hset⟩ := slotKeys_set cc cv hd
      rw [hset] at hx
      rcases List.mem_append.mp hx with h | h
      · exact Or.inr (by rw [hAB]; exact List.mem_append.mpr (Or.inl h))
      · rcases List.mem_cons.mp h with h | h
        · exact Or.inl h
        · exact Or.inr (by
            rw [hAB]
            exact List.mem_append.mpr (Or.inr (List.mem_cons_of_mem _ h)))
  · rw [List.set_eq_of_length_le (by omega)] at hx
    exact Or.inr hx

/-- The eviction loop only ever stores keys that were already in a table or
the key being inserted. -/
theorem cuckooGo_keys_sub (H : Hashes) :
    ∀ (iters : Nat) (key value : String) (t1 t2 : List Slot) (x : String),
      (x ∈ slotKeys (cuckooInsertGo H iters key value t1 t2).2.2.2.1 ∨
        x ∈ slotKeys (cuckooInsertGo H iters key value t1 t2).2.2.2.2) →
      x = key ∨ x ∈ slotKeys t1 ∨ x ∈ slotKeys t2 := by
  intro iters
  induction iters with
  | zero =>
    intro key value t1 t2 x hx
    exact Or.inr (by simpa [cuckooInsertGo] using hx)
  | succ iters ih =>
    intro key value t1 t2 x hx
    unfold cuckooInsertGo at hx
    simp only [← List.getD_eq_getElem?_getD] at hx
    cases h1 : t1.getD (cuckooHash1 H key) none with
    | none =>
      rw [h1] at hx
      dsimp only at hx
      rcases hx with hx | hx
      · rcases mem_slotKeys_set hx with h | h
        · exact Or.inl h
        · exact Or.inr (Or.inl h)
      · exact Or.inr (Or.inr hx)
    | some p =>
      obtain ⟨k1, v1⟩ := p
      rw [h1] at hx
      dsimp only at hx
      by_cases hk : k1 = key
      · rw [if_pos hk] at hx
        dsimp only at hx
        rcases hx with hx | hx
        · rcases mem_slotKeys_set hx with h | h
          · exact Or.inl h
          · exact Or.inr (Or.inl h)
        · exact Or.inr (Or.inr hx)
      · rw [if_neg hk] at hx
        cases h2 : t2.getD (cuckooHash2 H k1) none with
        | none =>
          rw [h2] at hx
          dsimp only at hx
          rcases hx with hx | hx
          · rcases mem_slotKeys_set hx with h | h
            · exact Or.inl h
            · exact Or.inr (Or.inl h)
          · rcases mem_slotKeys_set hx with h | h
            · exact Or.inr (Or.inl (h.symm ▸ mem_slotKeys_of_getD h1))
            · exact Or.inr (Or.inr h)
        | some q =>
          obtain ⟨k2, v2⟩ := q
          rw [h2] at hx
          dsimp only at hx
          by_cases hk2 : k2 = k1
          · rw [if_pos hk2] at hx
            dsimp only at hx
            rcases hx with hx | hx
            · rcases mem_slotKeys_set hx with h | h
              · exact Or.inl h
              · exact Or.inr (Or.inl h)
            · rcases mem_slotKeys_set hx with h | h
              · exact Or.inr (Or.inl (h.symm ▸ mem_slotKeys_of_getD h1))
              · exact Or.inr (Or.inr h)
          · rw [if_neg hk2] at hx
            rcases ih k2 v2 (t1.set (cuckooHash1 H key) (some (key, value)))
              (t2.set (cuckooHash2 H k1) (some (k1, v1))) x hx with h | h | h
            · exact Or.inr (Or.inr (h.symm ▸ mem_slotKeys_of_getD h2))
            · rcases mem_slotKeys_set h with h' | h'
              · exact Or.inl h'
              · exact Or.inr (Or.inl h')
            · rcases mem_slotKeys_set h with h' | h'
              · exact Or.inr (Or.inl (h'.symm ▸ mem_slotKeys_of_getD h1))
              · exact Or.inr (Or.inr h')

theorem slotValue_some {e : Slot} {k w : String} (h : slotValue e k = some w) :
    e = some (k, w) := by
  cases e with
  | none => simp [slotValue] at h
  | some p =>
    obtain ⟨k', v'⟩ := p
    by_cases hk : k' = k
    · subst hk
      simp [slotValue] at h
      rw [h]
    · simp [slotValue, hk] at h

/-- A successful `cuckoo_lookup` means the key is stored in a table. -/
theorem cuckoo_lookup_mem {H : Hashes} {t1 t2 : List Slot} {k w : String}
    (h : cuckoo_lookup H t1 t2 k = some w) :
    k ∈ slotKeys t1 ∨ k ∈ slotKeys t2 := by
  unfold cuckoo_lookup at h
  cases h1 : slotValue (t1.getD (cuckooHash1 H k) none) k with
  | some v =>
    exact Or.inl (mem_slotKeys_of_getD (slotValue_some h1))
  | none =>
    rw [h1] at h
    dsimp only at h
    exact Or.inr (mem_slotKeys_of_getD (slotValue_some h))

/-- A key found in the tree after an insert is the inserted key or was
already found before. -/
theorem search_insert_some {t t' : RBTree} {k v k' w : String}
    (hsort : SortedPairs t.inorder) (hins : t.insert k v = some t')
    (hs : t'.search k' = some w) :
    k' = k ∨ ∃ w0, t.search k' = some w0 := by
  have hio := insert_inorder k v hsort hins
  have hsort' : SortedPairs t'.inorder := by
    rw [hio]; exact sorted_listUpsert k v hsort
  rw [search_eq_findA t' hsort' k', hio] at hs
  by_cases he : k' = k
  · exact Or.inl he
  · rw [findA_listUpsert_other k v k' he] at hs
    rw [search_eq_findA t hsort k']
    exact Or.inr ⟨w, hs⟩

theorem isSome_of_falsy_false {o : Option String} (h : falsy o = false) :
    o.isSome := by
  cases o with
  | none => simp [falsy] at h
  | some w => rfl

/-- The module-state invariant maintained by every request: the heap is a
well-formed `heapq` heap holding the entry `(-(count u), u)` exactly once
for each url `u` with a positive access count; every url appearing in the
heap, the cuckoo tables or the tree is present in the dict `url_map`; and
the tree's inorder traversal is sorted. -/
structure StoreInv (H : Hashes) (s : StoreState) : Prop where
  heapOk : IsHeap s.heap
  nodupUrls : (s.heap.map (fun p => p.2)).Nodup
  entries : ∀ p ∈ s.heap, p.1 = -(s.counter p.2 : Int) ∧ 0 < s.counter p.2
  tracked : ∀ u, 0 < s.counter u → u ∈ s.heap.map (fun p => p.2)
  heapUrls : ∀ p ∈ s.heap, (s.urlMap p.2).isSome
  sortedTree : SortedPairs s.tree.inorder
  cuckooUrls : ∀ x, x ∈ slotKeys s.t1 ∨ x ∈ slotKeys s.t2 →
    (s.urlMap x).isSome
  treeUrls : ∀ x w, s.tree.search x = some w → (s.urlMap x).isSome

theorem storeInv_empty (H : Hashes) : StoreInv H emptyState := by
  constructor
  · intro c h0 hcl; simp [emptyState] at hcl
  · simp [emptyState]
  · intro p hp; simp [emptyState] at hp
  · intro u hu; simp [emptyState] at hu
  · intro p hp; simp [emptyState] at hp
  · exact List.Pairwise.nil
  · intro x hx
    exfalso
    rcases hx with hx | hx <;>
      simp [emptyState, slotKeys_replicate] at hx
  · intro x w hx
    exact absurd hx (by simp [emptyState, RBTree.search])

/-- `put` preserves the module-state invariant. -/
theorem storeInv_put (H : Hashes) {s s' : StoreState} {k v : String}
    (hinv : StoreInv H s) (h : storePut H s k v = some s') : StoreInv H s' := by
  unfold storePut at h
  cases hins : s.tree.insert k v with
  | none => rw [hins] at h; exact absurd h (by simp)
  | some tr =>
    rw [hins] at h
    injection h with h
    subst h
    have hmono : ∀ x, (s.urlMap x).isSome →
        (if x = k then some v else s.urlMap x).isSome := by
      intro x hx
      by_cases hxk : x = k <;> simp [hxk, hx]
    constructor
    · exact hinv.heapOk
    · exact hinv.nodupUrls
    · exact hinv.entries
    · exact hinv.tracked
    · intro p hp
      exact hmono _ (hinv.heapUrls p hp)
    · show SortedPairs tr.inorder
      rw [insert_inorder k v hinv.sortedTree hins]
      exact sorted_listUpsert k v hinv.sortedTree
    · intro x hx
      dsimp only at hx ⊢
      have hx' : x ∈ slotKeys (cuckooInsertGo H 100 k v s.t1 s.t2).2.2.2.1 ∨
          x ∈ slotKeys (cuckooInsertGo H 100 k v s.t1 s.t2).2.2.2.2 := hx
      by_cases hxk : x = k
      · simp [hxk]
      · rcases cuckooGo_keys_sub H 100 k v s.t1 s.t2 x hx' with h1 | h1 | h1
        · exact absurd h1 hxk
        · rw [if_neg hxk]; exact hinv.cuckooUrls x (Or.inl h1)
        · rw [if_neg hxk]; exact hinv.cuckooUrls x (Or.inr h1)
    · intro x w hx
      dsimp only at hx ⊢
      by_cases hxk : x = k
      · simp [hxk]
      · rcases search_insert_some hinv.sortedTree hins hx with h1 | ⟨w0, h1⟩
        · exact absurd h1 hxk
        · rw [if_neg hxk]; exact hinv.treeUrls x w0 h1

/-- `get` either leaves the state unchanged (miss) or records the access,
in which case one of the three lookup stages returned a value. -/
theorem storeGet_state (H : Hashes) (s : StoreState) (k : String) :
    (storeGet H s k).2 = s ∨
    ((storeGet H s k).2 =
        { s with counter := (update_frequency s.counter s.heap k).1,
                 heap := (update_frequency s.counter s.heap k).2 } ∧
      ((s.urlMap k).isSome ∨ (cuckoo_lookup H s.t1 s.t2 k).isSome ∨
        (s.tree.search k).isSome)) := by
  unfold storeGet
  dsimp only
  by_cases h1 : falsy (s.urlMap k) = true
  · rw [if_pos h1]
    by_cases h2 : falsy (cuckoo_lookup H s.t1 s.t2 k) = true
    · rw [if_pos h2]
      by_cases h3 : falsy (s.tree.search k) = true
      · rw [if_pos h3]
        exact Or.inl rfl
      · rw [if_neg h3]
        exact Or.inr ⟨rfl, Or.inr (Or.inr
          (isSome_of_falsy_false (by simpa using h3)))⟩
    · rw [if_neg h2, if_neg h2]
      exact Or.inr ⟨rfl, Or.inr (Or.inl
        (isSome_of_falsy_false (by simpa using h2)))⟩
  · rw [if_neg h1, if_neg h1, if_neg h1]
    exact Or.inr ⟨rfl, Or.inl (isSome_of_falsy_false (by simpa using h1))⟩

/-- `get` preserves the module-state invariant. -/
theorem storeInv_get (H : Hashes) {s : StoreState} (k : String)
    (hinv : StoreInv H s) : StoreInv H (storeGet H s k).2 := by
  rcases storeGet_state H s k with h | ⟨h, hsome⟩
  · rw [h]; exact hinv
  · rw [h]
    have hurl : (s.urlMap k).isSome := by
      rcases hsome with h1 | h1 | h1
      · exact h1
      · obtain ⟨w, hw⟩ := Option.isSome_iff_exists.mp h1
        exact hinv.cuckooUrls k (cuckoo_lookup_mem hw)
      · obtain ⟨w, hw⟩ := Option.isSome_iff_exists.mp h1
        exact hinv.treeUrls k w hw
    obtain ⟨u1, u2, u3, u4⟩ := update_frequency_heap s.counter s.heap k
      hinv.heapOk hinv.nodupUrls hinv.entries
    constructor
    · exact u1
    · exact u2
    · exact u3
    · intro u hu
      show u ∈ (update_frequency s.counter s.heap k).2.map (fun p => p.2)
      rw [u4 u]
      by_cases huk : u = k
      · exact Or.inl huk
      · refine Or.inr (hinv.tracked u ?_)
        have hu' : 0 < (update_frequency s.counter s.heap k).1 u := hu
        rw [update_frequency_counter s.counter s.heap k] at hu'
        simpa [huk] using hu'
    · intro p hp
      have hp' : p ∈ (update_frequency s.counter s.heap k).2 := hp
      show (s.urlMap p.2).isSome
      have hp2 := (u4 p.2).mp (List.mem_map.mpr ⟨p, hp', rfl⟩)
      rcases hp2 with h1 | h1
      · rw [h1]; exact hurl
      · obtain ⟨q, hq, hq2⟩ := List.mem_map.mp h1
        rw [← hq2]
        exact hinv.heapUrls q hq
    · exact hinv.sortedTree
    · exact hinv.cuckooUrls
    · exact hinv.treeUrls

theorem runOp_inv (H : Hashes) {s s' : StoreState} {op : Op}
    (hinv : StoreInv H s) (h : runOp H s op = some s') : StoreInv H s' := by
  cases op with
  | put k v => exact storeInv_put H hinv (by simpa [runOp] using h)
  | get k =>
    have h2 : (storeGet H s k).2 = s' := by simpa [runOp] using h
    rw [← h2]
    exact storeInv_get H k hinv

theorem runOps_inv (H : Hashes) :
    ∀ (ops : List Op) (s s' : StoreState), StoreInv H s →
      runOps H s ops = some s' → StoreInv H s' := by
  intro ops
  induction ops with
  | nil =>
    intro s s' hinv hr
    have hss : s = s' := by simpa [runOps] using hr
    rw [← hss]; exact hinv
  | cons op rest ih =>
    intro s s' hinv hr
    unfold runOps at hr
    cases hop : runOp H s op with
    | none => rw [hop] at hr; exact absurd hr (by simp)
    | some s1 =>
      rw [hop] at hr
      exact ih s1 s' (runOp_inv H hinv hop) hr

/-- Every reachable module state satisfies the invariant. -/
theorem reachable_inv (H : Hashes) {s : StoreState} (h : Reachable H s) :
    StoreInv H s := by
  obtain ⟨ops, hops⟩ := h
  exact runOps_inv H ops emptyState s (storeInv_empty H) hops

/-- When every heap url is in the dict, the pop-and-collect loop returns
exactly `n` entries. -/
theorem popTop_length (um : String → Option String) :
    ∀ (n : Nat) (heap : List HeapEntry), IsHeap heap → n ≤ heap.length →
      (∀ p ∈ heap, (um p.2).isSome) → (popTop um n heap).length = n := by
  intro n
  induction n with
  | zero => intro heap _ _ _; rfl
  | succ n ih =>
    intro heap hH hn hsome
    have hne : heap ≠ [] := by
      intro h; rw [h] at hn; simp at hn
    rw [popTop, if_neg (by simpa [List.isEmpty_iff] using hne)]
    dsimp only
    obtain ⟨hp1, hp2, hp3, hp4⟩ := heappop_spec hH hne
    have hmem : (heappop heap).1 ∈ heap :=
      hp1.mem_iff.mp (List.mem_cons_self _ _)
    obtain ⟨w, hw⟩ := Option.isSome_iff_exists.mp (hsome _ hmem)
    have hlen2 := ih (heappop heap).2 hp2 (by rw [hp3]; omega)
      (fun p hp => hsome p (hp1.mem_iff.mp (List.mem_cons_of_mem _ hp)))
    rw [hw]
    dsimp only
    rw [List.length_cons, hlen2]

/-- Every entry returned by the pop-and-collect loop is a heap entry paired
with its dict value. -/
theorem popTop_mem (um : String → Option String) :
    ∀ (n : Nat) (heap : List HeapEntry), IsHeap heap →
      ∀ e ∈ popTop um n heap,
        ((-e.2.2, e.1) : HeapEntry) ∈ heap ∧ um e.1 = some e.2.1 := by
  intro n
  induction n with
  | zero => intro heap _ e he; simp [popTop] at he
  | succ n ih =>
    intro heap hH e he
    rw [popTop] at he
    by_cases hemp : heap.isEmpty = true
    · rw [if_pos hemp] at he
      exact ih heap hH e he
    · rw [if_neg hemp] at he
      dsimp only at he
      have hne : heap ≠ [] := fun h => hemp (List.isEmpty_iff.mpr h)
      obtain ⟨hp1, hp2, hp3, hp4⟩ := heappop_spec hH hne
      cases hw : um (heappop heap).1.2 with
      | some orig =>
        rw [hw] at he
        dsimp only at he
        rcases List.mem_cons.mp he with h | h
        · subst h
          refine ⟨?_, hw⟩
          simpa using hp1.mem_iff.mp (List.mem_cons_self _ _)
        · obtain ⟨hm, hu⟩ := ih (heappop heap).2 hp2 e h
          exact ⟨hp1.mem_iff.mp (List.mem_cons_of_mem _ hm), hu⟩
      | none =>
        rw [hw] at he
        dsimp only at he
        obtain ⟨hm, hu⟩ := ih (heappop heap).2 hp2 e he
        exact ⟨hp1.mem_iff.mp (List.mem_cons_of_mem _ hm), hu⟩

/-- The pop-and-collect loop returns counts in descending order. -/
theorem popTop_chain (um : String → Option String) :
    ∀ (n : Nat) (heap : List HeapEntry), IsHeap heap →
      List.Chain' (fun a b => b.2.2 ≤ a.2.2) (popTop um n heap) := by
  intro n
  induction n with
  | zero => intro heap _; simp [popTop]
  | succ n ih =>
    intro heap hH
    rw [popTop]
    by_cases hemp : heap.isEmpty = true
    · rw [if_pos hemp]; exact ih heap hH
    · rw [if_neg hemp]
      dsimp only
      have hne : heap ≠ [] := fun h => hemp (List.isEmpty_iff.mpr h)
      obtain ⟨hp1, hp2, hp3, hp4⟩ := heappop_spec hH hne
      cases hw : um (heappop heap).1.2 with
      | none => exact ih _ hp2
      | some orig =>
        dsimp only
        rw [List.chain'_cons']
        refine ⟨?_, ih _ hp2⟩
        intro y hy
        have hymem : y ∈ popTop um n (heappop heap).2 :=
          List.mem_of_mem_head? hy
        obtain ⟨hm, -⟩ := popTop_mem um n (heappop heap).2 hp2 y hymem
        have hq := pyLe_fst (hp4 _ hm)
        show y.2.2 ≤ -(heappop heap).1.1
        omega

/-- C7: on every reachable module state, `get_popular_urls` returns a
sequence of `(url, original, count)` entries ordered descending by count,
of length `min 10 (heap length)` — where the heap holds exactly one entry
per tracked key: a url is in the heap iff its access count is positive —
and each returned count is the url's current access count with its
original url from the dict.  The query itself is a pure function of the
state: it pops a copy of the heap, so repeated calls agree. -/
theorem claim7_top_k_query (H : Hashes) (s : StoreState)
    (hreach : Reachable H s) :
    List.Chain' (fun a b => b.2.2 ≤ a.2.2) (get_popular_urls s) ∧
    (get_popular_urls s).length = min 10 s.heap.length ∧
    (s.heap.map (fun p => p.2)).Nodup ∧
    (∀ u, u ∈ s.heap.map (fun p => p.2) ↔ 0 < s.counter u) ∧
    (∀ e ∈ get_popular_urls s, e.2.2 = (s.counter e.1 : Int) ∧
      s.urlMap e.1 = some e.2.1) := by
  have hinv := reachable_inv H hreach
  refine ⟨?_, ?_, hinv.nodupUrls, ?_, ?_⟩
  · exact popTop_chain s.urlMap (min 10 s.heap.length) s.heap hinv.heapOk
  · exact popTop_length s.urlMap (min 10 s.heap.length) s.heap hinv.heapOk
      (Nat.min_le_right 10 _) hinv.heapUrls
  · intro u
    constructor
    · intro hu
      obtain ⟨p, hp, hpu⟩ := List.mem_map.mp hu
      have hppos := (hinv.entries p hp).2
      rw [← hpu]
      exact hppos
    · exact hinv.tracked u
  · intro e he
    obtain ⟨hm, hu⟩ := popTop_mem s.urlMap (min 10 s.heap.length) s.heap
      hinv.heapOk e he
    have hent := (hinv.entries _ hm).1
    refine ⟨?_, hu⟩
    dsimp only at hent
    omega

/-- A concrete request sequence: one put on `"k"`, then two hits. -/
def popularOps : List Op := [.put "k" "v", .get "k", .get "k"]

/-- The module state reached by `popularOps` from startup (with all slot
hashes zero). -/
def popularState : StoreState :=
  (runOps H0 emptyState popularOps).getD emptyState

/-- C7 witness: after one put and two hits on key `"k"`, the top-K query of
the reached state satisfies all the properties of the claim (concretely it
returns `[("k", "v", 2)]`). -/
theorem claim7_top_k_query_witness :
    List.Chain' (fun a b => b.2.2 ≤ a.2.2) (get_popular_urls popularState) ∧
    (get_popular_urls popularState).length = min 10 popularState.heap.length ∧
    (popularState.heap.map (fun p => p.2)).Nodup ∧
    (∀ u, u ∈ popularState.heap.map (fun p => p.2) ↔
      0 < popularState.counter u) ∧
    (∀ e ∈ get_popular_urls popularState,
      e.2.2 = (popularState.counter e.1 : Int) ∧
      popularState.urlMap e.1 = some e.2.1) :=
  claim7_top_k_query H0 popularState ⟨popularOps, by rfl⟩

end URLShortener
